import Mathlib

/-!
Verification development for `ingestion/vector_db_sync.py`, the incremental
vector-index synchronization engine.

Shallow embedding conventions:
* Python strings are modelled as `List Char`; `txt` converts a Lean string
  literal to that representation.  Only the ASCII whitespace characters that
  the inputs of interest contain are modelled by `isSpace` (Python `\s` /
  `str.strip`).
* External collaborators (the tiktoken tokenizer, the LlamaIndex chunker and
  Voyage embedder inside `process_file`, the Pinecone store, git subprocess
  output, the GitHub event file and the JSON parser for journal lines) are
  modelled as explicit oracle parameters; the engine's own control flow and
  data transformations are translated from the source.
* Store side effects are modelled as an explicit event trace (`StoreEvent`):
  an event is appended exactly when the source performs the corresponding
  network call.
-/

/-- Convert a Lean string literal to the `List Char` text representation. -/
def txt (s : String) : List Char := s.data

/-- Python ASCII whitespace as tested by `\s`, `str.strip`, `str.split()`:
space, tab, newline, carriage return, vertical tab, form feed. -/
def isSpace (c : Char) : Bool :=
  c = ' ' || c = '\t' || c = '\n' || c = '\r' || c = '\x0b' || c = '\x0c'

/-- Sentence-ending characters of the splitting regex `(?<=[.!?])\s+`. -/
def isSentEnd (c : Char) : Bool :=
  c = '.' || c = '!' || c = '?'

/-- Python `str.strip()` with no argument: drop leading and trailing
whitespace (trailing first, via reversal, then leading). -/
def strip (s : List Char) : List Char :=
  ((s.reverse.dropWhile isSpace).reverse).dropWhile isSpace

/-- Worker for `wordsOf`: `cur` holds the characters of the word currently
being read, in reverse order. -/
def wordsGo (cur : List Char) : List Char → List (List Char)
  | [] => if cur = [] then [] else [cur.reverse]
  | c :: t =>
    if isSpace c then
      if cur = [] then wordsGo [] t else cur.reverse :: wordsGo [] t
    else wordsGo (c :: cur) t

/-- The whitespace-separated words of a text, used to state the
"no sentence text lost, aside from whitespace normalization" property. -/
def wordsOf (s : List Char) : List (List Char) := wordsGo [] s

/-! ### Token budgeter: `re_chunk_if_oversize` (vector_db_sync.py lines 134-169)

`count_tokens` delegates to the external tiktoken tokenizer, so the budgeter
is parameterised by an abstract token-counting function `tok`.
-/

mutual

/-- One step of the sentence splitter `re.split(r'(?<=[.!?])\s+', section)`.
`cur` is the current part in reverse, `prev` the previous character of the
original text (the lookbehind); a whitespace character directly after a
sentence-ending character starts a separator, which is a maximal whitespace
run (consumed by `splitSentSkip`). -/
def splitSentGo (cur : List Char) (prev : Char) : List Char → List (List Char)
  | [] => [cur.reverse]
  | c :: rest =>
    if isSentEnd prev && isSpace c then cur.reverse :: splitSentSkip rest
    else splitSentGo (c :: cur) c rest

/-- Consume the rest of a separator's whitespace run, then start a new part. -/
def splitSentSkip : List Char → List (List Char)
  | [] => [[]]
  | c :: rest =>
    if isSpace c then splitSentSkip rest
    else splitSentGo [c] c rest

end

/-- `re.split(r'(?<=[.!?])\s+', section)`: the lookbehind cannot match at
position 0, so the initial `prev` is a non-sentence-ending character. -/
def splitSent (s : List Char) : List (List Char) := splitSentGo [] ' ' s

/-- The greedy sentence reassembly loop of `re_chunk_if_oversize`:
`cur` models `current_chunk` (empty list = the empty string). -/
def assembleGo (tok : List Char → Nat) (maxTokens : Nat) (cur : List Char) :
    List (List Char) → List (List Char)
  | [] => if strip cur ≠ [] then [strip cur] else []
  | p :: rest =>
    let test := if cur = [] then p else cur ++ ' ' :: p
    if tok test ≤ maxTokens then assembleGo tok maxTokens test rest
    else (if cur ≠ [] then [strip cur] else []) ++ assembleGo tok maxTokens p rest

/-- Backtracking search of the window regex `.{1,3000}(?:\s+|$)` at one
position: the largest `k` with `1 ≤ k ≤ budget` such that the first `k`
characters contain no newline (Python `.` does not match `\n`) and position
`k` is the end of the text or a whitespace character (greedy `.{1,3000}`
backtracks from the longest prefix; for a fixed `k` the alternation
`(?:\s+|$)` succeeds iff one of the two holds). -/
def bestK (budget : Nat) : List Char → Option Nat
  | [] => none
  | c :: rest =>
    match budget with
    | 0 => none
    | b + 1 =>
      if c = '\n' then none
      else
        match bestK b rest with
        | some k => some (k + 1)
        | none =>
          if rest = [] || rest.head?.any isSpace then some 1 else none

/-- Match the window regex at the start of `u`: returns the matched text
(the `.{1,3000}` part plus the greedy `\s+` run, if any) and the remaining
text after the match. -/
def matchWin (u : List Char) : Option (List Char × List Char) :=
  match bestK 3000 u with
  | none => none
  | some k =>
    let afterDot := u.drop k
    some (u.take k ++ afterDot.takeWhile isSpace, afterDot.dropWhile isSpace)

/-- `re.findall(r'.{1,3000}(?:\s+|$)', chunk)`: scan left to right; at each
position emit the match if one starts there, otherwise advance one
character.  `fuel` bounds the recursion; every step consumes at least one
character, so `fuel = u.length` gives the exact semantics. -/
def findAllWinAux (fuel : Nat) (u : List Char) : List (List Char) :=
  match fuel with
  | 0 => []
  | f + 1 =>
    match u with
    | [] => []
    | c :: rest =>
      match matchWin (c :: rest) with
      | some (m, r) => m :: findAllWinAux f r
      | none => findAllWinAux f rest

/-- `re.findall(r'.{1,3000}(?:\s+|$)', chunk)`. -/
def findAllWin (u : List Char) : List (List Char) := findAllWinAux u.length u

/-- The last-resort pass of `re_chunk_if_oversize`: rebuild the accumulated
chunk list, keeping chunks within the token budget and hard-splitting the
rest on the fixed character window
(`really_final.extend([s.strip() for s in char_chunks if s.strip()])`). -/
def reallyFinalPass (tok : List Char → Nat) (maxTokens : Nat)
    (chunks : List (List Char)) : List (List Char) :=
  chunks.flatMap fun chunk =>
    if tok chunk ≤ maxTokens then [chunk]
    else ((findAllWin chunk).map strip).filter (· ≠ [])

/-- The per-section loop of `re_chunk_if_oversize`; `acc` models the
mutable `final_chunks` list, which accumulates across sections and is
rebuilt by the last-resort pass whenever the current section is oversize. -/
def reChunkCore (tok : List Char → Nat) (maxTokens : Nat) :
    List (List Char) → List (List Char) → List (List Char)
  | acc, [] => acc
  | acc, sec :: rest =>
    let s := strip sec
    if s = [] then reChunkCore tok maxTokens acc rest
    else if tok s ≤ maxTokens then reChunkCore tok maxTokens (acc ++ [s]) rest
    else
      let assembled := assembleGo tok maxTokens [] (splitSent s)
      reChunkCore tok maxTokens (reallyFinalPass tok maxTokens (acc ++ assembled)) rest

/-- `re_chunk_if_oversize(sections, max_tokens)` with the token counter
abstracted (`count_tokens` calls the external tiktoken tokenizer). -/
def re_chunk_if_oversize (tok : List Char → Nat) (maxTokens : Nat)
    (sections : List (List Char)) : List (List Char) :=
  reChunkCore tok maxTokens [] sections

/-- The default `MAX_TOKENS` constant. -/
def MAX_TOKENS : Nat := 8192

/-! ### Sync executor: store helpers and `run_sync` (lines 338-966)

The Pinecone store, the filesystem, and `process_file`'s external
collaborators (LlamaChunker, Voyage embeddings, uuid, clock) are oracles in
`Cfg`.  Store network calls are recorded as `StoreEvent`s in the order the
source issues them.
-/

/-- One vector record as built by `process_file`: the metadata fields the
engine itself branches on (`chunk_type`, `values`, `file_path`, `id`) are
modelled; the remaining metadata is payload the engine never inspects. -/
structure VecEntry where
  id : List Char
  values : List Int
  chunk_type : List Char
  file_path : List Char
deriving DecidableEq, Repr

/-- A network call to the vector store. -/
inductive StoreEvent where
  | deleteFiltered (repo path : List Char)
  | upsert (batch : List VecEntry)
  | wipeAll
deriving DecidableEq, Repr

/-- Outcome of a store delete as seen by the caller: success, the
"namespace not found" error response, or any other failure. -/
inductive DelOut where
  | ok
  | nsNotFound
  | fail (msg : List Char)
deriving DecidableEq, Repr

/-- What the filesystem reports for a path (`Path.exists` / `Path.is_dir`). -/
inductive FKind where
  | absent
  | file
  | dir
deriving DecidableEq, Repr

/-- One failure record `{file_path, operation, message, status?}` as written
by `append_error` and accumulated in the run's `failures` list; the status
key is omitted for a falsy (empty) status. -/
structure FailRec where
  file_path : List Char
  operation : List Char
  message : List Char
  status : Option (List Char)
deriving DecidableEq, Repr

/-- Build a `FailRec`, omitting an empty status like `append_error` does. -/
def mkFail (path op msg status : List Char) : FailRec :=
  ⟨path, op, msg, if status = [] then none else some status⟩

/-- Mutable run state of `run_sync`: the `file_stats` counters, the
`failures` list, the journal lines appended during this run, the ids of
upserted chunks, and the trace of store calls. -/
structure RunState where
  processed : Nat
  errors : Nat
  skipped : Nat
  deleted : Nat
  totalUpserted : Nat
  failures : List FailRec
  journal : List FailRec
  upsertedIds : List (List Char)
  events : List StoreEvent
deriving DecidableEq, Repr

/-- The all-zero initial run state. -/
def initState : RunState := ⟨0, 0, 0, 0, 0, [], [], [], []⟩

/-- External-world oracles for one run: the repo tag, the filesystem, the
outcome of `process_file` for a path/status (chunking + embedding, which may
raise), the store's response to a filtered delete, and the store's response
to an upsert (`none` = success). -/
structure Cfg where
  repo : List Char
  fs : List Char → FKind
  pf : List Char → List Char → Except (List Char) (List VecEntry)
  del : List Char → List Char → DelOut
  ups : List VecEntry → Option (List Char)

/-- `safe_delete_vectors(file_path, repo_name)` (lines 393-406): issue the
filtered delete; a "namespace not found" response is swallowed as a no-op,
any other failure re-raises. -/
def safe_delete_vectors (cfg : Cfg) (path : List Char) :
    List StoreEvent × Except (List Char) Unit :=
  ([StoreEvent.deleteFiltered cfg.repo path],
   match cfg.del path cfg.repo with
   | DelOut.ok => Except.ok ()
   | DelOut.nsNotFound => Except.ok ()
   | DelOut.fail e => Except.error e)

/-- The validation loop of `safe_upsert_batch` (lines 409-415): the message
of the first entry whose metadata has `chunk_type == "content"` and a falsy
(empty) vector value, if any. -/
def checkBatch : List VecEntry → Option (List Char)
  | [] => none
  | e :: rest =>
    if e.chunk_type = txt (r"content") ∧ e.values = [] then
      some (txt (r"Attempted to upsert empty embedding: ") ++ e.file_path)
    else checkBatch rest

/-- `safe_upsert_batch(batch, repo_name)`: validate every entry, raising
before the store call on a content chunk with an empty vector; otherwise
upsert the whole batch and return its length. -/
def safe_upsert_batch (cfg : Cfg) (batch : List VecEntry) :
    List StoreEvent × Except (List Char) Nat :=
  match checkBatch batch with
  | some msg => ([], Except.error msg)
  | none =>
    ([StoreEvent.upsert batch],
     match cfg.ups batch with
     | none => Except.ok batch.length
     | some e => Except.error e)

/-- The `BATCH_SIZE` constant. -/
def BATCH_SIZE : Nat := 10

/-- Slice a chunk list into `BATCH_SIZE` batches
(`chunks[i:i + BATCH_SIZE]` for `i in range(0, len(chunks), BATCH_SIZE)`);
`fuel = length` makes the recursion structural and exact. -/
def toBatchesAux : Nat → List VecEntry → List (List VecEntry)
  | 0, _ => []
  | _, [] => []
  | f + 1, l => l.take BATCH_SIZE :: toBatchesAux f (l.drop BATCH_SIZE)

/-- The batch slicing of `run_sync`'s upsert loop. -/
def toBatches (l : List VecEntry) : List (List VecEntry) :=
  toBatchesAux l.length l

/-- The per-file upsert loop of `run_sync` (lines 931-943): each batch is
upserted with its own try/except; a failing batch is counted and journaled
with operation `upsert` and the loop continues with the next batch. -/
def upsertAll (cfg : Cfg) (status path : List Char) :
    RunState → List (List VecEntry) → RunState
  | st, [] => st
  | st, b :: bs =>
    let r := safe_upsert_batch cfg b
    let st1 := {st with events := st.events ++ r.1}
    match r.2 with
    | Except.ok n =>
      upsertAll cfg status path
        {st1 with totalUpserted := st1.totalUpserted + n,
                  upsertedIds := st1.upsertedIds ++ b.map (·.id)} bs
    | Except.error e =>
      upsertAll cfg status path
        {st1 with errors := st1.errors + 1,
                  failures := st1.failures ++ [mkFail path (txt (r"upsert")) e status],
                  journal := st1.journal ++ [mkFail path (txt (r"upsert")) e status]} bs

/-- The chunk-and-upsert tail of one record's processing: run
`process_file` (which may raise), upsert its chunks in batches, then count
the file as processed. -/
def chunkAndUpsert (cfg : Cfg) (status path : List Char) (st : RunState) :
    RunState × Option (List Char) :=
  match cfg.pf path status with
  | Except.error e => (st, some e)
  | Except.ok chunks =>
    let st1 := upsertAll cfg status path st (toBatches chunks)
    ({st1 with processed := st1.processed + 1}, none)

/-- The body of `run_sync`'s per-record `try:` block (lines 906-945).
Returns the state as mutated so far together with `some message` when the
body raises (to be handled by the record-boundary `except`). -/
def recordBody (cfg : Cfg) (wipeFirst : Bool) (st : RunState)
    (status path : List Char) : RunState × Option (List Char) :=
  if cfg.fs path = FKind.dir then
    ({st with skipped := st.skipped + 1,
              journal := st.journal ++
                [mkFail path (txt (r"skip-dir")) (txt (r"Path is a directory; skipping")) status]},
     none)
  else if status = txt (r"D") then
    let r := safe_delete_vectors cfg path
    let st1 := {st with events := st.events ++ r.1}
    match r.2 with
    | Except.ok _ => ({st1 with deleted := st1.deleted + 1}, none)
    | Except.error e => (st1, some e)
  else if cfg.fs path = FKind.absent then
    ({st with skipped := st.skipped + 1},
     some (txt (r"File marked as ") ++ status ++ txt (r" but not found: ") ++ path))
  else if (status = txt (r"A") ∨ status = txt (r"M")) ∧ wipeFirst = false then
    let r := safe_delete_vectors cfg path
    let st1 := {st with events := st.events ++ r.1}
    match r.2 with
    | Except.error e => (st1, some e)
    | Except.ok _ => chunkAndUpsert cfg status path {st1 with deleted := st1.deleted + 1}
  else
    chunkAndUpsert cfg status path st

/-- One record's processing including the record-boundary `except` handler:
a raised exception is converted into a `process`-operation failure, counted,
and journaled. -/
def processRecord (cfg : Cfg) (wipeFirst : Bool) (st : RunState)
    (rec : List Char × List Char) : RunState :=
  match recordBody cfg wipeFirst st rec.1 rec.2 with
  | (st', none) => st'
  | (st', some e) =>
    {st' with errors := st'.errors + 1,
              failures := st'.failures ++ [mkFail rec.2 (txt (r"process")) e rec.1],
              journal := st'.journal ++ [mkFail rec.2 (txt (r"process")) e rec.1]}

/-- The `for status, filepath in files_to_process:` loop. -/
def runRecords (cfg : Cfg) (wipeFirst : Bool)
    (files : List (List Char × List Char)) (st : RunState) : RunState :=
  files.foldl (processRecord cfg wipeFirst) st

/-- `run_sync(files_to_process, errors_out, repo_root, wipe_first)` from
after client initialization: optional namespace wipe (`wres` is the store's
response; "namespace not found" is treated as already wiped, any other
failure is fatal), then the per-record loop, then `SystemExit(1)` iff any
failures were recorded (modelled as exit code 1, else 0). -/
def run_sync (cfg : Cfg) (wres : DelOut) (wipeFirst : Bool)
    (files : List (List Char × List Char)) :
    Except (List Char) (RunState × Nat) :=
  if wipeFirst then
    match wres with
    | DelOut.fail e => Except.error (txt (r"Failed to wipe namespace: ") ++ e)
    | _ =>
      let stF := runRecords cfg wipeFirst files {initState with events := [StoreEvent.wipeAll]}
      Except.ok (stF, if stF.failures = [] then 0 else 1)
  else
    let stF := runRecords cfg wipeFirst files initState
    Except.ok (stF, if stF.failures = [] then 0 else 1)

/-! ### Change set resolver (lines 546-793)

Git subprocess output, the journal file's JSON lines, and the GitHub event
are oracles; the line parsing and record expansion are translated from the
source.
-/

/-- Prepend a character to the first part of a non-empty part list. -/
def consHead (c : Char) : List (List Char) → List (List Char)
  | [] => [[c]]
  | p :: ps => (c :: p) :: ps

/-- Python `s.split("\t")`: split on every tab, keeping empty parts; the
result is never empty (`"".split("\t") == [""]`). -/
def splitTab : List Char → List (List Char)
  | [] => [[]]
  | c :: t => if c = '\t' then [] :: splitTab t else consHead c (splitTab t)

/-- Python `s.startswith("R")`. -/
def startsWithR (s : List Char) : Bool := s.head? = some 'R'

/-- One line of a superproject `git diff --name-status` listing
(lines 638-648): `cols = line.strip().split("\t")`; a status starting with
`R` with at least three columns expands the rename to `D` old plus `M` new;
otherwise two or more columns yield one record. -/
def superLine (line : List Char) : List (List Char × List Char) :=
  match splitTab (strip line) with
  | st :: old :: new :: _ =>
    if startsWithR st then [(txt (r"D"), old), (txt (r"M"), new)]
    else [(st, old)]
  | st :: fp :: [] => [(st, fp)]
  | _ => []

/-- One line of a `git diff --name-status` run inside a submodule
(lines 681-690): identical parsing, every path prefixed with the
submodule's relative path. -/
def subDiffLine (subPath line : List Char) : List (List Char × List Char) :=
  match splitTab (strip line) with
  | st :: old :: new :: _ =>
    if startsWithR st then
      [(txt (r"D"), subPath ++ '/' :: old), (txt (r"M"), subPath ++ '/' :: new)]
    else [(st, subPath ++ '/' :: old)]
  | st :: fp :: [] => [(st, subPath ++ '/' :: fp)]
  | _ => []

/-- `re.fullmatch(r"0+", sha)` or the literal `"0000000"`: the canonical
non-existent submodule pointer. -/
def isZeros (s : List Char) : Bool :=
  s = txt (r"0000000") || (!s.isEmpty && s.all (· = '0'))

/-- One submodule pointer change as parsed by `_parse_submodule_short`,
with the outputs of the git commands run for it as oracles: `lsNew`/`lsOld`
are the `ls-tree -r --name-only` listings at the new/old SHA, `diffLines`
the `diff --name-status` output inside the submodule, and `gitFail` is
`some message` when the git invocation raises. -/
structure SubEntry where
  path : List Char
  oldsha : List Char
  newsha : List Char
  lsNew : List (List Char)
  lsOld : List (List Char)
  diffLines : List (List Char)
  gitFail : Option (List Char)
deriving Repr

/-- The per-submodule expansion (lines 652-692): a pointer appearing from
the all-zero SHA adds every tracked file, a pointer vanishing to the
all-zero SHA deletes every tracked file, otherwise the submodule's own
name-status diff is expanded with renames split; a git failure is journaled
and contributes no records. -/
def subChanges (e : SubEntry) : List (List Char × List Char) :=
  match e.gitFail with
  | some _ => []
  | none =>
    if isZeros e.oldsha then
      e.lsNew.filterMap fun f =>
        if strip f ≠ [] then some (txt (r"A"), e.path ++ '/' :: f) else none
    else if isZeros e.newsha then
      e.lsOld.filterMap fun f =>
        if strip f ≠ [] then some (txt (r"D"), e.path ++ '/' :: f) else none
    else
      e.diffLines.flatMap (subDiffLine e.path)

/-- `compute_changes_from_git` (lines 634-694): superproject name-status
lines first, then each changed submodule's expansion. -/
def compute_changes_from_git (superLines : List (List Char))
    (subs : List SubEntry) : List (List Char × List Char) :=
  superLines.flatMap superLine ++ subs.flatMap subChanges

/-- Python `s.split(None, maxsplit)`: skip leading whitespace; while splits
remain, take a maximal non-whitespace word; once `maxsplit` splits are
used, the remainder (leading whitespace consumed) is one final part. -/
def pySplitWsMax : Nat → List Char → List (List Char)
  | 0, s =>
    match s.dropWhile isSpace with
    | [] => []
    | c :: t => [c :: t]
  | m + 1, s =>
    match s.dropWhile isSpace with
    | [] => []
    | c :: t =>
      ((c :: t).takeWhile fun d => !isSpace d) ::
        pySplitWsMax m ((c :: t).dropWhile fun d => !isSpace d)

/-- One line of a changed-files listing (lines 775-789):
`parts = line.split(None, 2)`; a rename line must carry old and new paths
and expands to `D` old plus `M` new; otherwise a non-empty second column
yields one record. -/
def changedLineRecords (line : List Char) :
    Except (List Char) (List (List Char × List Char)) :=
  match pySplitWsMax 2 line with
  | [] => Except.error (txt (r"IndexError: empty changed-files line"))
  | status :: rest =>
    if startsWithR status then
      match rest with
      | old :: new :: _ => Except.ok [(txt (r"D"), old), (txt (r"M"), new)]
      | _ => Except.error (txt (r"Malformed rename line: ") ++ line)
    else
      match rest with
      | fp :: _ => Except.ok (if fp ≠ [] then [(status, fp)] else [])
      | [] => Except.ok []

/-- The changed-files parsing loop (lines 772-789): lines in order, a
malformed rename aborts. -/
def parseChangedLines : List (List Char) →
    Except (List Char) (List (List Char × List Char))
  | [] => Except.ok []
  | l :: ls => do
    let r ← changedLineRecords l
    let rs ← parseChangedLines ls
    Except.ok (r ++ rs)

/-- Split at the first colon: `some (before, after)` iff the text contains
a colon (Python `":" in tok` and `tok.split(":", 1)`). -/
def splitColon : List Char → Option (List Char × List Char)
  | [] => none
  | c :: t =>
    if c = ':' then some ([], t)
    else (splitColon t).map fun p => (c :: p.1, p.2)

/-- `parse_token` of the `--files` mode (lines 729-736): an optional
status prefix before the first colon is stripped and upper-cased and must
be `A`, `M` or `D` (anything else raises); a token without a colon defaults
to status `M`. -/
def parse_token (tok : List Char) : Except (List Char) (List Char × List Char) :=
  match splitColon tok with
  | some (st0, path) =>
    let st := (strip st0).map Char.toUpper
    if st = txt (r"A") ∨ st = txt (r"M") ∨ st = txt (r"D") then Except.ok (st, path)
    else Except.error (txt (r"Invalid status prefix in --files token: ") ++ tok)
  | none => Except.ok (txt (r"M"), tok)

/-- The `--files` token loop (lines 738-739): first invalid token aborts. -/
def parseFiles : List (List Char) →
    Except (List Char) (List (List Char × List Char))
  | [] => Except.ok []
  | t :: ts => do
    let r ← parse_token t
    let rs ← parseFiles ts
    Except.ok (r :: rs)

/-- The fields of one parsed journal JSON object that the replay reads:
`obj.get("file_path")` and `obj.get("status")` (`none` = key absent). -/
structure JRec where
  file_path : Option (List Char)
  status : Option (List Char)
deriving DecidableEq, Repr

/-- One journal line in replay mode (lines 743-753): `none` models a line
on which `json.loads` (or attribute access) raises, which is skipped; a
missing or falsy status defaults to `M`, is upper-cased, and any value
outside `A`/`M`/`D` is coerced to `M`; a missing or falsy `file_path`
skips the line. -/
def lineRec : Option JRec → List (List Char × List Char)
  | none => []
  | some obj =>
    let st0 := match obj.status with
      | none => txt (r"M")
      | some s => if s = [] then txt (r"M") else s
    let st1 := st0.map Char.toUpper
    let st := if st1 = txt (r"A") ∨ st1 = txt (r"M") ∨ st1 = txt (r"D") then st1
              else txt (r"M")
    match obj.file_path with
    | some fp => if fp ≠ [] then [(st, fp)] else []
    | none => []

/-- The `--retry-errors` replay (lines 740-753). -/
def replayJournal (lines : List (Option JRec)) : List (List Char × List Char) :=
  lines.flatMap lineRec

/-- The parsed command-line arguments that select the input mode
(`to_commit`, `repo_root` and `errors_out` only select oracle content and
are not modelled). -/
structure Args where
  changed_files : Option (List Char)
  files : Option (List (List Char))
  retry_errors : Option (List Char)
  from_commit : Option (List Char)
  reindex_all : Bool
  skip_on_missing_keys : Bool

/-- Python truthiness of an optional string. -/
def optTruthy : Option (List Char) → Bool
  | none => false
  | some s => !s.isEmpty

/-- Python truthiness of `args.files` (absent and the empty list are both
falsy). -/
def filesTruthy (a : Args) : Bool :=
  match a.files with
  | some (_ :: _) => true
  | _ => false

/-- The process environment and external-world oracles of one
`main_entry` invocation. -/
structure Env where
  keysPresent : Bool
  reindexFiles : List (List Char × List Char)
  superDiffLines : List (List Char)
  subEntries : List SubEntry
  journalLines : Option (List (Option JRec))
  changedLines : List (List Char)
  ghRange : Option (List Char × List Char)
  cfg : Cfg
  wres : DelOut

/-- The input-mode resolution of `main_entry` (lines 714-791): the
`--reindex-all` conflict check, then exactly one of the five sources of
`files_to_process`; returns the record list and the `wipe_first` flag. -/
def selectFiles (a : Args) (env : Env) :
    Except (List Char) (List (List Char × List Char) × Bool) :=
  if a.reindex_all && (filesTruthy a || optTruthy a.retry_errors || optTruthy a.changed_files) then
    Except.error (txt (r"--reindex-all cannot be combined with --files, --retry-errors, or changed_files"))
  else if a.reindex_all then
    if env.reindexFiles = [] then
      Except.error (txt (r"No tracked files found to index. Make sure the superproject is a git repo and submodules are checked out."))
    else Except.ok (env.reindexFiles, true)
  else if filesTruthy a then
    match a.files with
    | some toks => (parseFiles toks).map fun rs => (rs, false)
    | none => Except.error (txt (r"unreachable"))
  else if optTruthy a.retry_errors then
    match env.journalLines with
    | some lines => Except.ok (replayJournal lines, false)
    | none => Except.error (txt (r"Errors file not found: ") ++ (a.retry_errors.getD []))
  else
    match a.from_commit with
    | some _ =>
      Except.ok (((compute_changes_from_git env.superDiffLines env.subEntries).filter
        fun rec => !startsWithR rec.1), false)
    | none =>
      match a.changed_files with
      | some _ => (parseChangedLines env.changedLines).map fun rs => (rs, false)
      | none =>
        match env.ghRange with
        | some _ =>
          Except.ok (((compute_changes_from_git env.superDiffLines env.subEntries).filter
            fun rec => !startsWithR rec.1), false)
        | none =>
          Except.error (txt (r"GITHUB_EVENT_PATH not set. Cannot auto-detect commit range."))

/-- Outcome of `main_entry`: graceful exit 0 on missing keys with the skip
flag, or the sync run's final state and exit code. -/
inductive MainOut where
  | skippedKeys
  | done (st : RunState) (code : Nat)
deriving Repr

/-- `main_entry` (lines 697-793): key validation, input-mode resolution
(any resolver failure aborts before `run_sync` is invoked, hence before
any store call), then the sync run. -/
def main_entry (a : Args) (env : Env) : Except (List Char) MainOut :=
  if env.keysPresent = false then
    if a.skip_on_missing_keys then Except.ok MainOut.skippedKeys
    else Except.error (txt (r"Missing required API keys"))
  else
    match selectFiles a env with
    | Except.error e => Except.error e
    | Except.ok (files, wipe) =>
      match run_sync env.cfg env.wres wipe files with
      | Except.error e => Except.error e
      | Except.ok (st, code) => Except.ok (MainOut.done st code)

/-! ### Lemma toolkit: whitespace, words, strip -/

lemma dropWhile_append_allP {p : Char → Bool} :
    ∀ {pre l : List Char}, (∀ c ∈ pre, p c) → (pre ++ l).dropWhile p = l.dropWhile p := by
  intro pre l h
  induction pre with
  | nil => rfl
  | cons c t ih =>
    have hc : p c := h c (List.mem_cons_self _ _)
    simp only [List.cons_append, List.dropWhile_cons, hc, if_true]
    exact ih fun d hd => h d (List.mem_cons_of_mem _ hd)

lemma length_dropWhile_le' {p : Char → Bool} :
    ∀ l : List Char, (l.dropWhile p).length ≤ l.length := by
  intro l
  induction l with
  | nil => simp [List.dropWhile]
  | cons c t ih =>
    by_cases hc : p c
    · simp only [List.dropWhile_cons, hc, if_true]
      exact Nat.le_trans ih (Nat.le_succ _)
    · simp [List.dropWhile_cons, hc]

lemma length_strip_le (s : List Char) : (strip s).length ≤ s.length := by
  unfold strip
  calc (((s.reverse.dropWhile isSpace).reverse).dropWhile isSpace).length
      ≤ ((s.reverse.dropWhile isSpace).reverse).length := length_dropWhile_le' _
    _ = (s.reverse.dropWhile isSpace).length := List.length_reverse _
    _ ≤ s.reverse.length := length_dropWhile_le' _
    _ = s.length := List.length_reverse _

lemma strip_append_allws {a w : List Char} (h : ∀ c ∈ w, isSpace c) :
    strip (a ++ w) = strip a := by
  unfold strip
  have : (a ++ w).reverse.dropWhile isSpace = a.reverse.dropWhile isSpace := by
    rw [List.reverse_append]
    exact dropWhile_append_allP fun c hc => h c (List.mem_reverse.mp hc)
  rw [this]

lemma wordsGo_append_cons_ws {c : Char} (hc : isSpace c) (b : List Char) :
    ∀ (a cur : List Char),
      wordsGo cur (a ++ c :: b) = wordsGo cur a ++ wordsGo [] b := by
  intro a
  induction a with
  | nil =>
    intro cur
    by_cases hcur : cur = []
    · subst hcur; simp [wordsGo, hc]
    · simp [wordsGo, hc, hcur]
  | cons x t ih =>
    intro cur
    by_cases hx : isSpace x
    · by_cases hcur : cur = []
      · subst hcur
        simp only [List.cons_append, wordsGo, hx, if_true, if_pos rfl]
        exact ih []
      · simp only [List.cons_append, wordsGo, hx, if_true, if_neg hcur, List.append_eq]
        rw [ih []]
    · simp only [List.cons_append, wordsGo, hx, if_false, Bool.false_eq_true]
      exact ih (x :: cur)

lemma wordsOf_append_cons_ws {c : Char} (hc : isSpace c) (a b : List Char) :
    wordsOf (a ++ c :: b) = wordsOf a ++ wordsOf b :=
  wordsGo_append_cons_ws hc b a []

lemma wordsOf_allws : ∀ {w : List Char}, (∀ c ∈ w, isSpace c) → wordsOf w = [] := by
  intro w h
  induction w with
  | nil => rfl
  | cons c t ih =>
    have hc : isSpace c := h c (List.mem_cons_self _ _)
    simp only [wordsOf, wordsGo, hc, if_true, if_pos rfl]
    exact ih fun d hd => h d (List.mem_cons_of_mem _ hd)

lemma wordsOf_dropWhile_ws : ∀ (l : List Char), wordsOf (l.dropWhile isSpace) = wordsOf l := by
  intro l
  induction l with
  | nil => rfl
  | cons c t ih =>
    by_cases hc : isSpace c
    · simp only [List.dropWhile_cons, hc, if_true]
      rw [ih]
      simp [wordsOf, wordsGo, hc]
    · simp [List.dropWhile_cons, hc]

lemma wordsOf_strip (s : List Char) : wordsOf (strip s) = wordsOf s := by
  unfold strip
  rw [wordsOf_dropWhile_ws]
  have hsplit : s = (s.reverse.dropWhile isSpace).reverse ++ (s.reverse.takeWhile isSpace).reverse := by
    conv_lhs => rw [← List.reverse_reverse s]
    rw [← List.reverse_append, List.takeWhile_append_dropWhile]
  have hws : ∀ c ∈ (s.reverse.takeWhile isSpace).reverse, isSpace c := by
    intro c hcmem
    exact List.mem_takeWhile_imp (List.mem_reverse.mp hcmem)
  conv_rhs => rw [hsplit]
  cases htail : (s.reverse.takeWhile isSpace).reverse with
  | nil => simp
  | cons c w =>
    have hc : isSpace c := by
      apply hws; rw [htail]; exact List.mem_cons_self _ _
    have hw : ∀ d ∈ w, isSpace d := by
      intro d hd; apply hws; rw [htail]; exact List.mem_cons_of_mem _ hd
    rw [wordsOf_append_cons_ws hc, wordsOf_allws hw, List.append_nil]

/-! ### Token budgeter lemmas -/

lemma bestK_le : ∀ (u : List Char) (budget k : Nat), bestK budget u = some k → k ≤ budget := by
  intro u
  induction u with
  | nil => intro budget k h; simp [bestK] at h
  | cons c rest ih =>
    intro budget k h
    cases budget with
    | zero => simp [bestK] at h
    | succ b =>
      have hdef : bestK (b + 1) (c :: rest) =
          (if c = '\n' then none else
            match bestK b rest with
            | some k => some (k + 1)
            | none => if rest = [] || rest.head?.any isSpace then some 1 else none) := rfl
      rw [hdef] at h
      by_cases hc : c = '\n'
      · rw [if_pos hc] at h; exact absurd h (by simp)
      · rw [if_neg hc] at h
        cases hbk : bestK b rest with
        | some k' =>
          rw [hbk] at h
          have : k = k' + 1 := by exact (Option.some.injEq _ _).mp h.symm
          subst this
          exact Nat.succ_le_succ (ih b k' hbk)
        | none =>
          rw [hbk] at h
          by_cases hh : (rest = [] || rest.head?.any isSpace) = true
          · rw [if_pos hh] at h
            have : k = 1 := by exact (Option.some.injEq _ _).mp h.symm
            subst this
            exact Nat.succ_le_succ (Nat.zero_le _)
          · rw [if_neg hh] at h; exact absurd h (by simp)

lemma matchWin_strip_le {u m r : List Char} (h : matchWin u = some (m, r)) :
    (strip m).length ≤ 3000 := by
  unfold matchWin at h
  cases hbk : bestK 3000 u with
  | none => rw [hbk] at h; exact absurd h (by simp)
  | some k =>
    rw [hbk] at h
    simp only [Option.some.injEq, Prod.mk.injEq] at h
    have hm : m = u.take k ++ (u.drop k).takeWhile isSpace := h.1.symm
    have hws : ∀ c ∈ (u.drop k).takeWhile isSpace, isSpace c :=
      fun c hc => List.mem_takeWhile_imp hc
    rw [hm, strip_append_allws hws]
    calc (strip (u.take k)).length ≤ (u.take k).length := length_strip_le _
      _ ≤ k := by rw [List.length_take]; exact Nat.min_le_left _ _
      _ ≤ 3000 := bestK_le u 3000 k hbk

lemma findAllWin_strip_le :
    ∀ (fuel : Nat) (u m : List Char), m ∈ findAllWinAux fuel u → (strip m).length ≤ 3000 := by
  intro fuel
  induction fuel with
  | zero => intro u m h; simp [findAllWinAux] at h
  | succ f ih =>
    intro u m h
    cases u with
    | nil => simp [findAllWinAux] at h
    | cons c rest =>
      simp only [findAllWinAux] at h
      cases hmw : matchWin (c :: rest) with
      | none => rw [hmw] at h; exact ih rest m h
      | some p =>
        obtain ⟨m0, r⟩ := p
        rw [hmw] at h
        rcases List.mem_cons.mp h with h0 | h1
        · subst h0; exact matchWin_strip_le hmw
        · exact ih r m h1

lemma reallyFinalPass_le {tok : List Char → Nat} {maxT : Nat}
    (htok : ∀ s : List Char, tok s ≤ s.length) (hmax : 3000 ≤ maxT) :
    ∀ (chunks : List (List Char)) (c : List Char),
      c ∈ reallyFinalPass tok maxT chunks → tok c ≤ maxT := by
  intro chunks c hc
  unfold reallyFinalPass at hc
  rw [List.mem_flatMap] at hc
  obtain ⟨chunk, _, hcin⟩ := hc
  by_cases hch : tok chunk ≤ maxT
  · rw [if_pos hch] at hcin
    rcases List.mem_singleton.mp hcin with rfl
    exact hch
  · rw [if_neg hch] at hcin
    have hmem := List.mem_filter.mp hcin
    obtain ⟨m, hm, hstrip⟩ := List.mem_map.mp hmem.1
    subst hstrip
    calc tok (strip m) ≤ (strip m).length := htok _
      _ ≤ 3000 := findAllWin_strip_le _ _ _ hm
      _ ≤ maxT := hmax

lemma reChunkCore_le {tok : List Char → Nat} {maxT : Nat}
    (htok : ∀ s : List Char, tok s ≤ s.length) (hmax : 3000 ≤ maxT) :
    ∀ (sections acc : List (List Char)), (∀ c ∈ acc, tok c ≤ maxT) →
      ∀ c ∈ reChunkCore tok maxT acc sections, tok c ≤ maxT := by
  intro sections
  induction sections with
  | nil => intro acc hacc c hc; exact hacc c hc
  | cons sec rest ih =>
    intro acc hacc c hc
    simp only [reChunkCore] at hc
    by_cases h0 : strip sec = []
    · rw [if_pos h0] at hc; exact ih acc hacc c hc
    · rw [if_neg h0] at hc
      by_cases h1 : tok (strip sec) ≤ maxT
      · rw [if_pos h1] at hc
        refine ih _ ?_ c hc
        intro d hd
        rcases List.mem_append.mp hd with hda | hds
        · exact hacc d hda
        · rcases List.mem_singleton.mp hds with rfl; exact h1
      · rw [if_neg h1] at hc
        refine ih _ ?_ c hc
        intro d hd
        exact reallyFinalPass_le htok hmax _ d hd

lemma splitSent_words_aux :
    ∀ (n : Nat) (t : List Char), t.length ≤ n →
      (∀ (cur : List Char) (prev : Char),
        (splitSentGo cur prev t).flatMap wordsOf = wordsOf (cur.reverse ++ t)) ∧
      ((splitSentSkip t).flatMap wordsOf = wordsOf t) := by
  intro n
  induction n with
  | zero =>
    intro t ht
    have ht0 : t = [] := List.length_eq_zero.mp (Nat.le_zero.mp ht)
    subst ht0
    constructor
    · intro cur prev
      simp [splitSentGo, wordsOf]
    · simp [splitSentSkip, wordsOf, wordsGo]
  | succ n ih =>
    intro t ht
    cases t with
    | nil =>
      constructor
      · intro cur prev
        simp [splitSentGo, wordsOf]
      · simp [splitSentSkip, wordsOf, wordsGo]
    | cons c rest =>
      have hrest : rest.length ≤ n := Nat.le_of_succ_le_succ ht
      constructor
      · intro cur prev
        simp only [splitSentGo]
        by_cases hsep : (isSentEnd prev && isSpace c) = true
        · rw [if_pos hsep]
          have hc : isSpace c := (Bool.and_eq_true _ _).mp hsep |>.2
          simp only [List.flatMap_cons]
          rw [(ih rest hrest).2, wordsOf_append_cons_ws hc]
        · rw [if_neg hsep]
          rw [(ih rest hrest).1 (c :: cur) c]
          rw [List.reverse_cons, List.append_assoc]
          rfl
      · simp only [splitSentSkip]
        by_cases hc : isSpace c
        · rw [if_pos hc]
          rw [(ih rest hrest).2]
          unfold wordsOf
          simp [wordsGo, hc]
        · rw [if_neg hc]
          rw [(ih rest hrest).1 [c] c]
          rfl

lemma splitSent_words (t : List Char) :
    (splitSent t).flatMap wordsOf = wordsOf t := by
  have h := (splitSent_words_aux t.length t (Nat.le_refl _)).1 [] ' '
  simpa [splitSent] using h

lemma assembleGo_words {tok : List Char → Nat} {maxT : Nat} :
    ∀ (parts : List (List Char)) (cur : List Char),
      (assembleGo tok maxT cur parts).flatMap wordsOf =
        wordsOf cur ++ parts.flatMap wordsOf := by
  intro parts
  induction parts with
  | nil =>
    intro cur
    simp only [assembleGo, List.flatMap_nil, List.append_nil]
    by_cases h : strip cur = []
    · rw [if_neg (by simp [h])]
      have : wordsOf cur = wordsOf (strip cur) := (wordsOf_strip cur).symm
      rw [this, h]
      rfl
    · rw [if_pos (by simp [h])]
      simp [wordsOf_strip]
  | cons p rest ih =>
    intro cur
    simp only [assembleGo]
    have htest : wordsOf (if cur = [] then p else cur ++ ' ' :: p) =
        wordsOf cur ++ wordsOf p := by
      by_cases hcur : cur = []
      · subst hcur; simp [wordsOf, wordsGo]
      · rw [if_neg hcur, wordsOf_append_cons_ws (by decide)]
    by_cases hle : tok (if cur = [] then p else cur ++ ' ' :: p) ≤ maxT
    · rw [if_pos hle, ih, htest]
      simp [List.append_assoc]
    · rw [if_neg hle, List.flatMap_append, ih p]
      by_cases hcur : cur = []
      · subst hcur
        rw [if_neg (by simp)]
        rfl
      · rw [if_pos (by simp [hcur])]
        simp [wordsOf_strip]

lemma reallyFinalPass_id {tok : List Char → Nat} {maxT : Nat} :
    ∀ {chunks : List (List Char)}, (∀ c ∈ chunks, tok c ≤ maxT) →
      reallyFinalPass tok maxT chunks = chunks := by
  intro chunks h
  induction chunks with
  | nil => rfl
  | cons c rest ih =>
    unfold reallyFinalPass
    rw [List.flatMap_cons, if_pos (h c (List.mem_cons_self _ _))]
    have := ih fun d hd => h d (List.mem_cons_of_mem _ hd)
    unfold reallyFinalPass at this
    rw [this]
    rfl

/-! ### Evaluation lemmas on whitespace-free replicate inputs, used by the
counterexamples to the oversize-splitting claims. -/

lemma dropWhile_ws_replicate (n : Nat) :
    (List.replicate n 'a').dropWhile isSpace = List.replicate n 'a' := by
  cases n with
  | zero => rfl
  | succ m => simp [List.replicate_succ, List.dropWhile_cons, isSpace]

lemma strip_replicate (n : Nat) :
    strip (List.replicate n 'a') = List.replicate n 'a' := by
  unfold strip
  rw [List.reverse_replicate, dropWhile_ws_replicate, List.reverse_replicate,
    dropWhile_ws_replicate]

lemma bestK_replicate :
    ∀ (n b : Nat), bestK b (List.replicate n 'a') =
      if 1 ≤ n ∧ n ≤ b then some n else none := by
  intro n
  induction n with
  | zero => intro b; simp [bestK]
  | succ m ih =>
    intro b
    cases b with
    | zero =>
      rw [List.replicate_succ]
      simp [bestK]
    | succ b' =>
      rw [List.replicate_succ]
      have hdef : bestK (b' + 1) ('a' :: List.replicate m 'a') =
          (if 'a' = '\n' then none else
            match bestK b' (List.replicate m 'a') with
            | some k => some (k + 1)
            | none =>
              if List.replicate m 'a' = [] || (List.replicate m 'a').head?.any isSpace
              then some 1 else none) := rfl
      rw [hdef, if_neg (by decide), ih b']
      by_cases h : 1 ≤ m ∧ m ≤ b'
      · rw [if_pos h, if_pos (show 1 ≤ m + 1 ∧ m + 1 ≤ b' + 1 by omega)]
      · rw [if_neg h]
        rcases Nat.lt_or_ge m 1 with hm | hm
        · have hm0 : m = 0 := Nat.lt_one_iff.mp hm
          subst hm0
          simp
        · have hb : ¬ m ≤ b' := fun hle => h ⟨hm, hle⟩
          have hne : List.replicate m 'a' ≠ [] := by
            simp [List.replicate_eq_nil_iff]
            omega
          have hhead : (List.replicate m 'a').head?.any isSpace = false := by
            cases m with
            | zero => omega
            | succ k => simp [List.replicate_succ, isSpace]
          rw [if_neg (by simp [hne, hhead])]
          rw [if_neg (by omega)]

lemma matchWin_replicate (n : Nat) (h1 : 1 ≤ n) :
    matchWin (List.replicate n 'a') =
      if n ≤ 3000 then some (List.replicate n 'a', []) else none := by
  unfold matchWin
  rw [bestK_replicate]
  by_cases h : n ≤ 3000
  · rw [if_pos ⟨h1, h⟩, if_pos h]
    simp [List.take_replicate, List.drop_replicate]
  · rw [if_neg (fun hc => h hc.2), if_neg h]

lemma findAllWinAux_nil (f : Nat) : findAllWinAux f [] = [] := by
  cases f <;> rfl

lemma findAll_replicate :
    ∀ (f n : Nat), 3000 ≤ n → n ≤ f + 2999 →
      findAllWinAux f (List.replicate n 'a') = [List.replicate 3000 'a'] := by
  intro f
  induction f with
  | zero => intro n h1 h2; omega
  | succ f' ih =>
    intro n h1 h2
    cases n with
    | zero => omega
    | succ m =>
      rw [List.replicate_succ]
      have hdef : findAllWinAux (f' + 1) ('a' :: List.replicate m 'a') =
          (match matchWin ('a' :: List.replicate m 'a') with
           | some (mm, r) => mm :: findAllWinAux f' r
           | none => findAllWinAux f' (List.replicate m 'a')) := rfl
      rw [hdef, ← List.replicate_succ, matchWin_replicate (m + 1) (Nat.le_add_left _ _)]
      by_cases h : m + 1 ≤ 3000
      · have hm : m + 1 = 3000 := Nat.le_antisymm h h1
        rw [if_pos h]
        show List.replicate (m + 1) 'a' :: findAllWinAux f' [] = [List.replicate 3000 'a']
        rw [findAllWinAux_nil, hm]
      · rw [if_neg h]
        exact ih m (by omega) (by omega)

lemma splitSentGo_replicate :
    ∀ (n : Nat) (cur : List Char) (prev : Char),
      splitSentGo cur prev (List.replicate n 'a') =
        [cur.reverse ++ List.replicate n 'a'] := by
  intro n
  induction n with
  | zero => intro cur prev; simp [splitSentGo]
  | succ m ih =>
    intro cur prev
    rw [List.replicate_succ]
    have hcond : (isSentEnd prev && isSpace 'a') = false := by
      simp [isSpace]
    simp only [splitSentGo, hcond, Bool.false_eq_true, if_false]
    rw [ih ('a' :: cur) 'a', List.reverse_cons, List.append_assoc]
    rfl

lemma wordsGo_replicate :
    ∀ (n : Nat) (cur : List Char),
      wordsGo cur (List.replicate n 'a') =
        if cur = [] ∧ n = 0 then [] else [cur.reverse ++ List.replicate n 'a'] := by
  intro n
  induction n with
  | zero =>
    intro cur
    by_cases hc : cur = []
    · subst hc; simp [wordsGo]
    · simp [wordsGo, hc]
  | succ m ih =>
    intro cur
    rw [List.replicate_succ]
    have hns : isSpace 'a' = false := by decide
    simp only [wordsGo, hns, Bool.false_eq_true, if_false]
    rw [ih ('a' :: cur)]
    rw [if_neg (by simp)]
    rw [if_neg (by simp)]
    rw [List.reverse_cons, List.append_assoc]
    rfl

lemma wordsOf_replicate (n : Nat) (h : 1 ≤ n) :
    wordsOf (List.replicate n 'a') = [List.replicate n 'a'] := by
  unfold wordsOf
  rw [wordsGo_replicate, if_neg (by omega)]
  rfl

lemma replicate_a_ne_nil {n : Nat} (h : 1 ≤ n) : List.replicate n 'a' ≠ [] := by
  intro he
  have hl := congrArg List.length he
  rw [List.length_replicate, List.length_nil] at hl
  omega

lemma replicate_a_over {n : Nat} (h : 2731 ≤ n) :
    ¬ 3 * (List.replicate n 'a').length ≤ MAX_TOKENS := by
  rw [List.length_replicate]
  unfold MAX_TOKENS
  omega

/-- Evaluation of the budgeter on one 3001-character whitespace-free
section under a tokenizer charging three tokens per character: the section
is over budget, cannot be sentence-split, and the character-window fallback
emits only the final 3000 characters. -/
lemma reChunk_big_eval :
    re_chunk_if_oversize (fun s => 3 * s.length) MAX_TOKENS
      [List.replicate 3001 'a'] = [List.replicate 3000 'a'] := by
  unfold re_chunk_if_oversize
  simp only [reChunkCore, strip_replicate]
  rw [if_neg (replicate_a_ne_nil (by omega))]
  rw [if_neg (replicate_a_over (by omega))]
  have hsplit : splitSent (List.replicate 3001 'a') = [List.replicate 3001 'a'] := by
    unfold splitSent
    rw [splitSentGo_replicate]
    rfl
  rw [hsplit]
  have hasm : assembleGo (fun s => 3 * s.length) MAX_TOKENS []
      [List.replicate 3001 'a'] = [List.replicate 3001 'a'] := by
    simp only [assembleGo, eq_self_iff_true, if_true]
    rw [if_neg (replicate_a_over (by omega))]
    rw [if_neg (by simp), List.nil_append, strip_replicate]
    rw [if_pos (show List.replicate 3001 'a' ≠ [] from replicate_a_ne_nil (by omega))]
  rw [hasm]
  have hrf : reallyFinalPass (fun s => 3 * s.length) MAX_TOKENS
      ([] ++ [List.replicate 3001 'a']) = [List.replicate 3000 'a'] := by
    unfold reallyFinalPass
    rw [List.nil_append, List.flatMap_cons, List.flatMap_nil]
    rw [if_neg (replicate_a_over (by omega))]
    have hfa : findAllWin (List.replicate 3001 'a') = [List.replicate 3000 'a'] := by
      unfold findAllWin
      rw [List.length_replicate]
      exact findAll_replicate 3001 3001 (by omega) (by omega)
    rw [hfa, List.map_cons, List.map_nil, strip_replicate]
    have hdec : (decide (List.replicate 3000 'a' ≠ [])) = true := by
      rw [decide_eq_true_eq]
      exact replicate_a_ne_nil (by omega)
    simp only [List.filter_cons, List.filter_nil, hdec, if_true, List.append_nil]
  exact hrf

/-! ### Claims C5 and C6: the token budgeter -/

/-- C5, counterexample.  The claim "every chunk returned by
`re_chunk_if_oversize` has a token count at or below `max_tokens`" is false
for a tokenizer that counts three tokens per character (as real tokenizers
can on multi-byte text): a single whitespace-free 3001-character section is
over budget, and the character-window fallback emits a 3000-character chunk
whose token count 9000 exceeds `MAX_TOKENS = 8192`. -/
theorem claim_C5_counterexample :
    re_chunk_if_oversize (fun s => 3 * s.length) MAX_TOKENS
        [List.replicate 3001 'a'] = [List.replicate 3000 'a'] ∧
      ¬ 3 * (List.replicate 3000 'a').length ≤ MAX_TOKENS := by
  refine ⟨reChunk_big_eval, ?_⟩
  rw [List.length_replicate]
  unfold MAX_TOKENS
  omega

/-- C5, amended.  Every chunk returned by `re_chunk_if_oversize` either
passed the explicit token check or is a stripped fixed-window piece of at
most 3000 characters; hence whenever the tokenizer yields at most one token
per character and the limit is at least 3000 (as with the default
`MAX_TOKENS = 8192`), every returned chunk is within the token limit. -/
theorem claim_C5_amended (tok : List Char → Nat) (maxT : Nat)
    (sections : List (List Char))
    (htok : ∀ s : List Char, tok s ≤ s.length) (hmax : 3000 ≤ maxT) :
    ∀ c ∈ re_chunk_if_oversize tok maxT sections, tok c ≤ maxT :=
  reChunkCore_le htok hmax sections []
    (fun c hc => absurd hc (List.not_mem_nil c))

/-- C5, witness for the amended theorem at the length tokenizer, the
default limit and a small two-sentence section. -/
theorem claim_C5_witness :
    (∀ s : List Char, (fun u : List Char => u.length) s ≤ s.length) ∧
      3000 ≤ MAX_TOKENS ∧
      (∀ c ∈ re_chunk_if_oversize (fun u : List Char => u.length) MAX_TOKENS
          [txt (r"Tiny. Chunk!")], (fun u : List Char => u.length) c ≤ MAX_TOKENS) :=
  ⟨fun _ => Nat.le_refl _, by decide,
    claim_C5_amended _ _ _ (fun _ => Nat.le_refl _) (by decide)⟩

/-- C6, counterexample.  Re-joining the sub-chunks does not always
reproduce the input's words: on a whitespace-free 3001-character section
that is over budget (tokenizer: three tokens per character), the
character-window fallback regex can only match the final 3000 characters,
so the first character of the section is dropped. -/
theorem claim_C6_counterexample :
    (re_chunk_if_oversize (fun s => 3 * s.length) MAX_TOKENS
        [List.replicate 3001 'a']).flatMap wordsOf
      ≠ wordsOf (List.replicate 3001 'a') := by
  rw [reChunk_big_eval, List.flatMap_cons, List.flatMap_nil, List.append_nil]
  rw [wordsOf_replicate 3000 (by omega), wordsOf_replicate 3001 (by omega)]
  intro h
  have h2 := (List.cons.inj h).1
  have h3 := congrArg List.length h2
  rw [List.length_replicate, List.length_replicate] at h3
  omega

/-- C6, amended.  When the greedy sentence reassembly already brings every
sub-chunk of a section within the token limit (so the character-window
fallback never fires), the concatenated output of `re_chunk_if_oversize`
has exactly the input's word sequence: nothing is lost or duplicated aside
from whitespace normalization. -/
theorem claim_C6_amended (tok : List Char → Nat) (maxT : Nat) (s : List Char)
    (H : ∀ c ∈ assembleGo tok maxT [] (splitSent (strip s)), tok c ≤ maxT) :
    (re_chunk_if_oversize tok maxT [s]).flatMap wordsOf = wordsOf s := by
  unfold re_chunk_if_oversize
  simp only [reChunkCore]
  by_cases h0 : strip s = []
  · rw [if_pos h0, List.flatMap_nil, ← wordsOf_strip s, h0]
    rfl
  · rw [if_neg h0]
    by_cases h1 : tok (strip s) ≤ maxT
    · rw [if_pos h1]
      simp only [List.nil_append, List.flatMap_cons, List.flatMap_nil, List.append_nil]
      exact wordsOf_strip s
    · rw [if_neg h1]
      have hall : ∀ c ∈ ([] ++ assembleGo tok maxT [] (splitSent (strip s))),
          tok c ≤ maxT := by
        intro c hc
        rw [List.nil_append] at hc
        exact H c hc
      rw [reallyFinalPass_id hall, List.nil_append, assembleGo_words, splitSent_words]
      rw [show wordsOf ([] : List Char) = [] from rfl, List.nil_append, wordsOf_strip]

/-- C6, witness for the amended theorem: a two-sentence section over a
limit of 4 length-tokens splits into two sentence chunks whose re-joined
words are exactly the input's words. -/
theorem claim_C6_witness :
    (∀ c ∈ assembleGo (fun u : List Char => u.length) 4 []
        (splitSent (strip (txt (r"ab. cd")))), (fun u : List Char => u.length) c ≤ 4) ∧
      (re_chunk_if_oversize (fun u : List Char => u.length) 4
          [txt (r"ab. cd")]).flatMap wordsOf = wordsOf (txt (r"ab. cd")) :=
  ⟨by decide, claim_C6_amended _ _ _ (by decide)⟩

/-! ### Claim C3: fail-fast validation in `safe_upsert_batch` -/

/-- Boolean error test for `Except`. -/
def isErrorB {ε α : Type} : Except ε α → Bool
  | Except.error _ => true
  | Except.ok _ => false

lemma checkBatch_none_iff : ∀ batch : List VecEntry,
    checkBatch batch = none ↔
      ∀ e ∈ batch, ¬(e.chunk_type = txt (r"content") ∧ e.values = []) := by
  intro batch
  induction batch with
  | nil => simp [checkBatch]
  | cons e rest ih =>
    constructor
    · intro h f hf
      by_cases hbad : e.chunk_type = txt (r"content") ∧ e.values = []
      · rw [show checkBatch (e :: rest) = some (txt (r"Attempted to upsert empty embedding: ") ++ e.file_path)
          from by simp [checkBatch, if_pos hbad]] at h
        exact absurd h (by simp)
      · rw [show checkBatch (e :: rest) = checkBatch rest
          from by simp [checkBatch, if_neg hbad]] at h
        rcases List.mem_cons.mp hf with rfl | hf2
        · exact hbad
        · exact (ih.mp h) f hf2
    · intro h
      have hbad : ¬(e.chunk_type = txt (r"content") ∧ e.values = []) :=
        h e (List.mem_cons_self _ _)
      rw [show checkBatch (e :: rest) = checkBatch rest
        from by simp [checkBatch, if_neg hbad]]
      exact ih.mpr fun f hf => h f (List.mem_cons_of_mem _ hf)

/-- C3.  A batch containing any entry with metadata `chunk_type` equal to
`content` and an empty (or absent) vector makes `safe_upsert_batch` raise
with no store call issued for the batch; a batch with no such entry is
upserted whole in one store call and, when the store accepts it, the batch
length is returned. -/
theorem claim_C3 (cfg : Cfg) (batch : List VecEntry) :
    ((∃ e ∈ batch, e.chunk_type = txt (r"content") ∧ e.values = []) →
        (safe_upsert_batch cfg batch).1 = [] ∧
          isErrorB (safe_upsert_batch cfg batch).2 = true) ∧
      ((∀ e ∈ batch, ¬(e.chunk_type = txt (r"content") ∧ e.values = [])) →
        (safe_upsert_batch cfg batch).1 = [StoreEvent.upsert batch] ∧
          (cfg.ups batch = none →
            (safe_upsert_batch cfg batch).2 = Except.ok batch.length)) := by
  constructor
  · rintro ⟨e, he, hbad⟩
    cases hcb : checkBatch batch with
    | none => exact absurd hbad (((checkBatch_none_iff batch).mp hcb) e he)
    | some m =>
      unfold safe_upsert_batch
      rw [hcb]
      exact ⟨rfl, rfl⟩
  · intro hgood
    have hcb : checkBatch batch = none := (checkBatch_none_iff batch).mpr hgood
    unfold safe_upsert_batch
    rw [hcb]
    refine ⟨rfl, fun hups => ?_⟩
    rw [hups]

/-- A store/filesystem oracle configuration for concrete witnesses: every
path exists as a file, processing emits one embedded content chunk, the
store accepts everything. -/
def demoCfg : Cfg :=
  ⟨txt (r"webroot"), fun _ => FKind.file,
    fun _ _ => Except.ok [⟨txt (r"id-good"), [1], txt (r"content"), txt (r"f.py")⟩],
    fun _ _ => DelOut.ok, fun _ => none⟩

/-- A content entry with an empty vector (invalid for upsert). -/
def badEntry : VecEntry := ⟨txt (r"id-bad"), [], txt (r"content"), txt (r"f.py")⟩

/-- A content entry carrying a vector. -/
def goodEntry : VecEntry := ⟨txt (r"id-good"), [1], txt (r"content"), txt (r"f.py")⟩

/-- C3, witness: one invalid batch raises with no store call, one valid
batch is upserted whole with its length returned. -/
theorem claim_C3_witness :
    ((safe_upsert_batch demoCfg [badEntry]).1 = [] ∧
        isErrorB (safe_upsert_batch demoCfg [badEntry]).2 = true) ∧
      ((safe_upsert_batch demoCfg [goodEntry]).1 = [StoreEvent.upsert [goodEntry]] ∧
        (safe_upsert_batch demoCfg [goodEntry]).2 = Except.ok 1) := by
  refine ⟨(claim_C3 demoCfg [badEntry]).1 ⟨badEntry, by decide, by decide⟩, ?_⟩
  have h := (claim_C3 demoCfg [goodEntry]).2 (by decide)
  exact ⟨h.1, h.2 rfl⟩

/-! ### Claims C1, C8, C9: per-record store-call ordering and counters -/

lemma safe_upsert_events_upsert (cfg : Cfg) (b : List VecEntry) :
    ∀ ev ∈ (safe_upsert_batch cfg b).1, ∃ bb, ev = StoreEvent.upsert bb := by
  intro ev hev
  unfold safe_upsert_batch at hev
  cases hcb : checkBatch b with
  | some m => rw [hcb] at hev; exact absurd hev (List.not_mem_nil ev)
  | none =>
    rw [hcb] at hev
    rcases List.mem_singleton.mp hev with rfl
    exact ⟨b, rfl⟩

lemma upsertAll_events (cfg : Cfg) (status path : List Char) :
    ∀ (batches : List (List VecEntry)) (st : RunState),
      ∃ tail, (upsertAll cfg status path st batches).events = st.events ++ tail ∧
        ∀ ev ∈ tail, ∃ b, ev = StoreEvent.upsert b := by
  intro batches
  induction batches with
  | nil =>
    intro st
    exact ⟨[], by simp [upsertAll], fun ev h => absurd h (List.not_mem_nil ev)⟩
  | cons b bs ih =>
    intro st
    simp only [upsertAll]
    cases hr : (safe_upsert_batch cfg b).2 with
    | ok n =>
      obtain ⟨tail, htail, hall⟩ := ih
        {st with events := st.events ++ (safe_upsert_batch cfg b).1,
                 totalUpserted := st.totalUpserted + n,
                 upsertedIds := st.upsertedIds ++ b.map (·.id)}
      refine ⟨(safe_upsert_batch cfg b).1 ++ tail, ?_, ?_⟩
      · rw [htail, List.append_assoc]
      · intro ev hev
        rcases List.mem_append.mp hev with h1 | h2
        · exact safe_upsert_events_upsert cfg b ev h1
        · exact hall ev h2
    | error e =>
      obtain ⟨tail, htail, hall⟩ := ih
        {st with events := st.events ++ (safe_upsert_batch cfg b).1,
                 errors := st.errors + 1,
                 failures := st.failures ++ [mkFail path (txt (r"upsert")) e status],
                 journal := st.journal ++ [mkFail path (txt (r"upsert")) e status]}
      refine ⟨(safe_upsert_batch cfg b).1 ++ tail, ?_, ?_⟩
      · rw [htail, List.append_assoc]
      · intro ev hev
        rcases List.mem_append.mp hev with h1 | h2
        · exact safe_upsert_events_upsert cfg b ev h1
        · exact hall ev h2

lemma chunkAndUpsert_events (cfg : Cfg) (status path : List Char) (st : RunState) :
    ∃ tail, (chunkAndUpsert cfg status path st).1.events = st.events ++ tail ∧
      ∀ ev ∈ tail, ∃ b, ev = StoreEvent.upsert b := by
  unfold chunkAndUpsert
  cases hpf : cfg.pf path status with
  | error e =>
    exact ⟨[], by simp, fun ev h => absurd h (List.not_mem_nil ev)⟩
  | ok chunks =>
    obtain ⟨tail, htail, hall⟩ := upsertAll_events cfg status path (toBatches chunks) st
    exact ⟨tail, htail, hall⟩

lemma processRecord_events_body (cfg : Cfg) (wipe : Bool) (st : RunState)
    (rec : List Char × List Char) :
    (processRecord cfg wipe st rec).events =
      (recordBody cfg wipe st rec.1 rec.2).1.events := by
  unfold processRecord
  cases hb : recordBody cfg wipe st rec.1 rec.2 with
  | mk st' o => cases o <;> rfl

/-- C1.  For a record with status `A` or `M` whose path is a regular file
on disk: with `wipe_first = False` the record's store-call trace begins
with the filtered delete for `(repo_name, file_path)` and everything after
it is an upsert, so the pre-delete precedes every upsert of the path's new
chunk vectors; with `wipe_first = True` the record issues no filtered
delete at all — its trace consists of upserts only.  `run_sync` folds
`processRecord` over the records. -/
theorem claim_C1 (cfg : Cfg) (st : RunState) (status path : List Char)
    (hst : status = txt (r"A") ∨ status = txt (r"M"))
    (hfs : cfg.fs path = FKind.file) :
    (∃ tail, (processRecord cfg false st (status, path)).events =
        st.events ++ StoreEvent.deleteFiltered cfg.repo path :: tail ∧
        ∀ ev ∈ tail, ∃ b, ev = StoreEvent.upsert b) ∧
      (∃ tail, (processRecord cfg true st (status, path)).events =
        st.events ++ tail ∧
        ∀ ev ∈ tail, ∃ b, ev = StoreEvent.upsert b) := by
  have hdir : ¬ cfg.fs path = FKind.dir := by rw [hfs]; intro h; exact absurd h (by decide)
  have habs : ¬ cfg.fs path = FKind.absent := by rw [hfs]; intro h; exact absurd h (by decide)
  have hD : ¬ status = txt (r"D") := by
    rcases hst with rfl | rfl <;> decide
  constructor
  · rw [processRecord_events_body]
    show ∃ tail, (recordBody cfg false st status path).1.events = _ ∧ _
    unfold recordBody
    rw [if_neg hdir, if_neg hD, if_neg habs, if_pos ⟨hst, rfl⟩]
    unfold safe_delete_vectors
    cases hdel : cfg.del path cfg.repo with
    | fail e =>
      exact ⟨[], rfl, fun ev h => absurd h (List.not_mem_nil ev)⟩
    | ok =>
      obtain ⟨tail, htail, hall⟩ := chunkAndUpsert_events cfg status path
        {st with events := st.events ++ [StoreEvent.deleteFiltered cfg.repo path],
                 deleted := st.deleted + 1}
      refine ⟨tail, ?_, hall⟩
      show (chunkAndUpsert cfg status path
        {st with events := st.events ++ [StoreEvent.deleteFiltered cfg.repo path],
                 deleted := st.deleted + 1}).1.events = _
      rw [htail]
      simp [List.append_assoc]
    | nsNotFound =>
      obtain ⟨tail, htail, hall⟩ := chunkAndUpsert_events cfg status path
        {st with events := st.events ++ [StoreEvent.deleteFiltered cfg.repo path],
                 deleted := st.deleted + 1}
      refine ⟨tail, ?_, hall⟩
      show (chunkAndUpsert cfg status path
        {st with events := st.events ++ [StoreEvent.deleteFiltered cfg.repo path],
                 deleted := st.deleted + 1}).1.events = _
      rw [htail]
      simp [List.append_assoc]
  · rw [processRecord_events_body]
    show ∃ tail, (recordBody cfg true st status path).1.events = _ ∧ _
    unfold recordBody
    rw [if_neg hdir, if_neg hD, if_neg habs,
      if_neg (by intro hw; exact absurd hw.2 (by decide))]
    exact chunkAndUpsert_events cfg status path st

/-- C1, witness at a modify record for an existing file under a store that
accepts all calls. -/
theorem claim_C1_witness :
    (txt (r"M") = txt (r"A") ∨ txt (r"M") = txt (r"M")) ∧
      demoCfg.fs (txt (r"docs/readme.md")) = FKind.file ∧
      ((∃ tail, (processRecord demoCfg false initState (txt (r"M"), txt (r"docs/readme.md"))).events =
          initState.events ++ StoreEvent.deleteFiltered demoCfg.repo (txt (r"docs/readme.md")) :: tail ∧
          ∀ ev ∈ tail, ∃ b, ev = StoreEvent.upsert b) ∧
        (∃ tail, (processRecord demoCfg true initState (txt (r"M"), txt (r"docs/readme.md"))).events =
          initState.events ++ tail ∧
          ∀ ev ∈ tail, ∃ b, ev = StoreEvent.upsert b)) :=
  ⟨Or.inr rfl, rfl,
    claim_C1 demoCfg initState (txt (r"M")) (txt (r"docs/readme.md")) (Or.inr rfl) rfl⟩

/-- C8.  A `D` record for a path absent from disk is not treated as a
file-not-found failure: the filtered delete is issued (one store call),
the deleted-files counter is incremented, and both a successful store
response and a "namespace not found" response leave the error counters and
failure lists untouched. -/
theorem claim_C8 (cfg : Cfg) (wipe : Bool) (st : RunState) (path : List Char)
    (hfs : cfg.fs path = FKind.absent)
    (hdel : cfg.del path cfg.repo = DelOut.ok ∨ cfg.del path cfg.repo = DelOut.nsNotFound) :
    processRecord cfg wipe st (txt (r"D"), path) =
      {st with deleted := st.deleted + 1,
               events := st.events ++ [StoreEvent.deleteFiltered cfg.repo path]} := by
  have hdir : ¬ cfg.fs path = FKind.dir := by rw [hfs]; intro h; exact absurd h (by decide)
  unfold processRecord recordBody
  rw [if_neg hdir, if_pos rfl]
  unfold safe_delete_vectors
  rcases hdel with h | h <;> rw [h]

/-- C8, witness: a delete record for an absent path against a store
answering "namespace not found". -/
theorem claim_C8_witness :
    (let cfgA : Cfg := ⟨txt (r"webroot"), fun _ => FKind.absent,
        fun _ _ => Except.ok [], fun _ _ => DelOut.nsNotFound, fun _ => none⟩
     processRecord cfgA false initState (txt (r"D"), txt (r"gone.md")) =
      {initState with deleted := initState.deleted + 1,
                      events := initState.events ++
                        [StoreEvent.deleteFiltered cfgA.repo (txt (r"gone.md"))]}) :=
  claim_C8 _ false initState (txt (r"gone.md")) rfl (Or.inr rfl)

/-- C9.  An `A` or `M` record whose path does not exist on disk is counted
in BOTH the skipped and the errors counters: the skipped counter is
incremented before the `FileNotFoundError` is raised, and the
record-boundary handler then increments the errors counter and journals a
`process`-operation `ErrorRecord`. -/
theorem claim_C9 (cfg : Cfg) (wipe : Bool) (st : RunState) (status path : List Char)
    (hst : status = txt (r"A") ∨ status = txt (r"M"))
    (hfs : cfg.fs path = FKind.absent) :
    processRecord cfg wipe st (status, path) =
      {st with skipped := st.skipped + 1,
               errors := st.errors + 1,
               failures := st.failures ++
                 [mkFail path (txt (r"process"))
                   (txt (r"File marked as ") ++ status ++ txt (r" but not found: ") ++ path) status],
               journal := st.journal ++
                 [mkFail path (txt (r"process"))
                   (txt (r"File marked as ") ++ status ++ txt (r" but not found: ") ++ path) status]} := by
  have hdir : ¬ cfg.fs path = FKind.dir := by rw [hfs]; intro h; exact absurd h (by decide)
  have hD : ¬ status = txt (r"D") := by
    rcases hst with rfl | rfl <;> decide
  unfold processRecord recordBody
  rw [if_neg hdir, if_neg hD, if_pos hfs]

/-- C9, witness: an `A` record for an absent path is counted as skipped
and as an error, with the journaled record carrying operation `process`. -/
theorem claim_C9_witness :
    (let cfgA : Cfg := ⟨txt (r"webroot"), fun _ => FKind.absent,
        fun _ _ => Except.ok [], fun _ _ => DelOut.ok, fun _ => none⟩
     processRecord cfgA false initState (txt (r"A"), txt (r"lost.md")) =
      {initState with skipped := initState.skipped + 1,
                      errors := initState.errors + 1,
                      failures := initState.failures ++
                        [mkFail (txt (r"lost.md")) (txt (r"process"))
                          (txt (r"File marked as ") ++ txt (r"A") ++ txt (r" but not found: ") ++ txt (r"lost.md")) (txt (r"A"))],
                      journal := initState.journal ++
                        [mkFail (txt (r"lost.md")) (txt (r"process"))
                          (txt (r"File marked as ") ++ txt (r"A") ++ txt (r" but not found: ") ++ txt (r"lost.md")) (txt (r"A"))]}) :=
  claim_C9 _ false initState (txt (r"A")) (txt (r"lost.md")) (Or.inl rfl) rfl

/-! ### Claim C4: failure isolation and exit status -/

lemma upsertAll_inv (cfg : Cfg) (status path : List Char) :
    ∀ (batches : List (List VecEntry)) (st : RunState) (d : Nat),
      st.failures.length = st.errors + d →
      (upsertAll cfg status path st batches).failures.length =
        (upsertAll cfg status path st batches).errors + d := by
  intro batches
  induction batches with
  | nil => intro st d h; simpa [upsertAll] using h
  | cons b bs ih =>
    intro st d h
    simp only [upsertAll]
    cases hr : (safe_upsert_batch cfg b).2 with
    | ok n => exact ih _ d (by simpa using h)
    | error e =>
      refine ih _ d ?_
      simp only [List.length_append, List.length_cons, List.length_nil]
      omega

lemma chunkAndUpsert_inv (cfg : Cfg) (status path : List Char) (st : RunState)
    (d : Nat) (h : st.failures.length = st.errors + d) :
    (chunkAndUpsert cfg status path st).1.failures.length =
      (chunkAndUpsert cfg status path st).1.errors + d := by
  unfold chunkAndUpsert
  cases hpf : cfg.pf path status with
  | error e => exact h
  | ok chunks => exact upsertAll_inv cfg status path (toBatches chunks) st d h

lemma recordBody_inv (cfg : Cfg) (wipe : Bool) (st : RunState)
    (status path : List Char) (d : Nat) (h : st.failures.length = st.errors + d) :
    (recordBody cfg wipe st status path).1.failures.length =
      (recordBody cfg wipe st status path).1.errors + d := by
  unfold recordBody
  by_cases h1 : cfg.fs path = FKind.dir
  · rw [if_pos h1]; exact h
  · rw [if_neg h1]
    by_cases h2 : status = txt (r"D")
    · rw [if_pos h2]
      unfold safe_delete_vectors
      cases cfg.del path cfg.repo <;> exact h
    · rw [if_neg h2]
      by_cases h3 : cfg.fs path = FKind.absent
      · rw [if_pos h3]; exact h
      · rw [if_neg h3]
        by_cases h4 : (status = txt (r"A") ∨ status = txt (r"M")) ∧ wipe = false
        · rw [if_pos h4]
          unfold safe_delete_vectors
          cases cfg.del path cfg.repo with
          | ok => exact chunkAndUpsert_inv cfg status path _ d h
          | nsNotFound => exact chunkAndUpsert_inv cfg status path _ d h
          | fail e => exact h
        · rw [if_neg h4]
          exact chunkAndUpsert_inv cfg status path st d h

lemma processRecord_inv (cfg : Cfg) (wipe : Bool) (st : RunState)
    (rec : List Char × List Char) (d : Nat) (h : st.failures.length = st.errors + d) :
    (processRecord cfg wipe st rec).failures.length =
      (processRecord cfg wipe st rec).errors + d := by
  have hb := recordBody_inv cfg wipe st rec.1 rec.2 d h
  cases hbeq : recordBody cfg wipe st rec.1 rec.2 with
  | mk st' o =>
    rw [hbeq] at hb
    cases o with
    | none =>
      have hpr : processRecord cfg wipe st rec = st' := by
        unfold processRecord
        rw [hbeq]
      rw [hpr]
      exact hb
    | some e =>
      have hpr : processRecord cfg wipe st rec =
          {st' with errors := st'.errors + 1,
                    failures := st'.failures ++ [mkFail rec.2 (txt (r"process")) e rec.1],
                    journal := st'.journal ++ [mkFail rec.2 (txt (r"process")) e rec.1]} := by
        unfold processRecord
        rw [hbeq]
      rw [hpr]
      have hb' : st'.failures.length = st'.errors + d := hb
      simp only [List.length_append, List.length_cons, List.length_nil]
      omega

lemma runRecords_inv (cfg : Cfg) (wipe : Bool) :
    ∀ (files : List (List Char × List Char)) (st : RunState) (d : Nat),
      st.failures.length = st.errors + d →
      (runRecords cfg wipe files st).failures.length =
        (runRecords cfg wipe files st).errors + d := by
  intro files
  induction files with
  | nil => intro st d h; exact h
  | cons rec rest ih =>
    intro st d h
    exact ih (processRecord cfg wipe st rec) d (processRecord_inv cfg wipe st rec d h)

/-- C4.  Failure isolation and exit status: (1) when the body of a
record's processing raises, the record-boundary handler converts the
exception into exactly one more counted error, a `process`-operation
failure record and the matching journal line, on top of whatever state the
body had already produced; (2) the loop then continues with the next
record unconditionally; (3) a run (no wipe) always reaches the end of the
record list, the number of recorded failures equals the error counter, and
the exit code is non-zero if and only if at least one per-record failure
occurred. -/
theorem claim_C4 :
    (∀ (cfg : Cfg) (wipe : Bool) (st : RunState) (status path : List Char)
        (st'' : RunState) (e : List Char),
        recordBody cfg wipe st status path = (st'', some e) →
        processRecord cfg wipe st (status, path) =
          {st'' with errors := st''.errors + 1,
                     failures := st''.failures ++ [mkFail path (txt (r"process")) e status],
                     journal := st''.journal ++ [mkFail path (txt (r"process")) e status]}) ∧
      (∀ (cfg : Cfg) (wipe : Bool) (st : RunState) (rec : List Char × List Char)
          (rest : List (List Char × List Char)),
          runRecords cfg wipe (rec :: rest) st =
            runRecords cfg wipe rest (processRecord cfg wipe st rec)) ∧
      (∀ (cfg : Cfg) (wres : DelOut) (files : List (List Char × List Char))
          (st : RunState) (code : Nat),
          run_sync cfg wres false files = Except.ok (st, code) →
          st.failures.length = st.errors ∧ (code ≠ 0 ↔ st.errors ≠ 0)) := by
  refine ⟨?_, ?_, ?_⟩
  · intro cfg wipe st status path st'' e h
    unfold processRecord
    rw [h]
  · intro cfg wipe st rec rest
    rfl
  · intro cfg wres files st code h
    unfold run_sync at h
    rw [if_neg (by simp)] at h
    have hok := (Except.ok.injEq _ _).mp h
    have hst : runRecords cfg false files initState = st := congrArg Prod.fst hok
    have hcode : (if (runRecords cfg false files initState).failures = [] then 0 else 1) = code :=
      congrArg Prod.snd hok
    have hinvR : (runRecords cfg false files initState).failures.length =
        (runRecords cfg false files initState).errors := by
      simpa using runRecords_inv cfg false files initState 0 rfl
    have hinv : st.failures.length = st.errors := by rw [← hst]; exact hinvR
    refine ⟨hinv, ?_⟩
    rw [← hcode]
    by_cases hnil : (runRecords cfg false files initState).failures = []
    · rw [if_pos hnil]
      have he0 : st.errors = 0 := by
        rw [← hst]
        rw [hnil] at hinvR
        simpa using hinvR.symm
      simp [he0]
    · rw [if_neg hnil]
      have hepos : st.errors ≠ 0 := by
        rw [← hst]
        intro he
        rw [he] at hinvR
        exact hnil (List.length_eq_zero.mp hinvR)
      exact ⟨fun _ => hepos, fun _ => Nat.one_ne_zero⟩

/-- Oracle set for the spec's three-file scenario: all paths exist, the
second file's processing raises on embedding, the store accepts all calls. -/
def cfgThree : Cfg :=
  ⟨txt (r"webroot"), fun _ => FKind.file,
    fun p _ => if p = txt (r"b.md") then Except.error (txt (r"Embedding failed"))
               else Except.ok [⟨txt (r"id-good"), [1], txt (r"content"), txt (r"f.py")⟩],
    fun _ _ => DelOut.ok, fun _ => none⟩

/-- The three modify records of the scenario. -/
def filesThree : List (List Char × List Char) :=
  [(txt (r"M"), txt (r"a.md")), (txt (r"M"), txt (r"b.md")), (txt (r"M"), txt (r"c.md"))]

/-- The final state of the three-file run. -/
def stThree : RunState :=
  match run_sync cfgThree DelOut.ok false filesThree with
  | Except.ok (s, _) => s
  | Except.error _ => initState

/-- C4, witness: the three-file run where the second file raises processes
files one and three (two successes), records exactly one failure paired
with one more journal line than the success path writes, and exits with
code 1. -/
theorem claim_C4_witness :
    run_sync cfgThree DelOut.ok false filesThree = Except.ok (stThree, 1) ∧
      stThree.processed = 2 ∧ stThree.errors = 1 ∧
      stThree.failures.length = stThree.errors ∧ ((1 : Nat) ≠ 0 ↔ stThree.errors ≠ 0) := by
  refine ⟨by rfl, by decide, by decide, ?_⟩
  exact claim_C4.2.2 cfgThree DelOut.ok filesThree stThree 1 (by rfl)

/-! ### Claim C7: reindex-all mode exclusivity -/

/-- C7, counterexample.  The conflict check at main_entry lines 717-719
tests only `args.files or args.retry_errors or args.changed_files`:
combining `--reindex-all` with `--from-commit` is NOT rejected — the run
proceeds in reindex mode with the commit range silently ignored. -/
theorem claim_C7_counterexample :
    (let aFC : Args := ⟨none, none, none, some (txt (r"abc123")), true, false⟩
     let envR : Env := ⟨true, [(txt (r"A"), txt (r"f.md"))], [], [], none, [], none,
        demoCfg, DelOut.ok⟩
     aFC.reindex_all = true ∧ aFC.from_commit = some (txt (r"abc123")) ∧
        isErrorB (main_entry aFC envR) = false) := by
  refine ⟨rfl, rfl, ?_⟩
  decide

/-- C7, amended.  `--reindex-all` combined with a positional changed-files
path, a non-empty `--files` list, or `--retry-errors` is rejected by
`main_entry` before `run_sync` is invoked (hence before any store or
filesystem side effect); combining it with `--from-commit` is NOT rejected
(the commit range is ignored).  A reindex-all run whose resolved file set
is empty aborts with a fatal error before any record is processed. -/
theorem claim_C7_amended :
    (∀ (a : Args) (env : Env), env.keysPresent = true → a.reindex_all = true →
        (filesTruthy a || optTruthy a.retry_errors || optTruthy a.changed_files) = true →
        main_entry a env = Except.error
          (txt (r"--reindex-all cannot be combined with --files, --retry-errors, or changed_files"))) ∧
      (∀ (a : Args) (env : Env), env.keysPresent = true → a.reindex_all = true →
        (filesTruthy a || optTruthy a.retry_errors || optTruthy a.changed_files) = false →
        env.reindexFiles = [] →
        main_entry a env = Except.error
          (txt (r"No tracked files found to index. Make sure the superproject is a git repo and submodules are checked out."))) := by
  constructor
  · intro a env hk hr hc
    unfold main_entry
    rw [if_neg (by simp [hk])]
    have hsel : selectFiles a env = Except.error
        (txt (r"--reindex-all cannot be combined with --files, --retry-errors, or changed_files")) := by
      unfold selectFiles
      rw [if_pos (by rw [hr, hc]; rfl)]
    rw [hsel]
  · intro a env hk hr hc hempty
    unfold main_entry
    rw [if_neg (by simp [hk])]
    have hsel : selectFiles a env = Except.error
        (txt (r"No tracked files found to index. Make sure the superproject is a git repo and submodules are checked out.")) := by
      unfold selectFiles
      rw [if_neg (by rw [hr, hc]; simp)]
      rw [if_pos (by rw [hr])]
      rw [if_pos hempty]
    rw [hsel]

/-- C7, witness: `--reindex-all --files A:x.md` is rejected with the
conflict error, and a reindex-all run over a repository with no tracked
files is rejected with the empty-set error. -/
theorem claim_C7_witness :
    (let aC : Args := ⟨none, some [txt (r"A:x.md")], none, none, true, false⟩
     let envR : Env := ⟨true, [(txt (r"A"), txt (r"f.md"))], [], [], none, [], none,
        demoCfg, DelOut.ok⟩
     main_entry aC envR = Except.error
        (txt (r"--reindex-all cannot be combined with --files, --retry-errors, or changed_files"))) ∧
      (let aE : Args := ⟨none, none, none, none, true, false⟩
       let envE : Env := ⟨true, [], [], [], none, [], none, demoCfg, DelOut.ok⟩
       main_entry aE envE = Except.error
          (txt (r"No tracked files found to index. Make sure the superproject is a git repo and submodules are checked out."))) :=
  ⟨claim_C7_amended.1 _ _ rfl rfl (by decide),
    claim_C7_amended.2 _ _ rfl rfl (by decide) rfl⟩

/-! ### Claim C10: journal replay coercion versus `--files` strictness -/

/-- A `--files` token with a colon whose stripped, upper-cased status
prefix is not `A`, `M` or `D`. -/
def badFilesToken (t : List Char) : Prop :=
  ∃ st0 path, splitColon t = some (st0, path) ∧
    ¬((strip st0).map Char.toUpper = txt (r"A") ∨
      (strip st0).map Char.toUpper = txt (r"M") ∨
      (strip st0).map Char.toUpper = txt (r"D"))

lemma parse_token_error_of_bad {t : List Char} (h : badFilesToken t) :
    isErrorB (parse_token t) = true := by
  obtain ⟨st0, path, hsp, hbad⟩ := h
  unfold parse_token
  rw [hsp]
  show isErrorB
    (if (strip st0).map Char.toUpper = txt (r"A") ∨
        (strip st0).map Char.toUpper = txt (r"M") ∨
        (strip st0).map Char.toUpper = txt (r"D")
     then Except.ok ((strip st0).map Char.toUpper, path)
     else Except.error (txt (r"Invalid status prefix in --files token: ") ++ t)) = true
  rw [if_neg hbad]
  rfl

lemma parseFiles_error_of_mem :
    ∀ (toks : List (List Char)) (t : List Char), t ∈ toks → badFilesToken t →
      isErrorB (parseFiles toks) = true := by
  intro toks
  induction toks with
  | nil => intro t ht _; exact absurd ht (List.not_mem_nil t)
  | cons t0 ts ih =>
    intro t ht hbad
    show isErrorB (parse_token t0 >>= fun r => parseFiles ts >>= fun rs => Except.ok (r :: rs)) = true
    cases h0 : parse_token t0 with
    | error e => rfl
    | ok r =>
      rcases List.mem_cons.mp ht with rfl | hts
      · have := parse_token_error_of_bad hbad
        rw [h0] at this
        exact absurd this (by simp [isErrorB])
      · cases hts2 : parseFiles ts with
        | error e => rfl
        | ok rs =>
          have := ih t hts hbad
          rw [hts2] at this
          exact absurd this (by simp [isErrorB])

/-- C10.  In journal replay a parsed line with a usable `file_path` is
never skipped for a bad status: a missing or falsy status, and a status
whose upper-casing is outside `A`/`M`/`D`, are all coerced to `M` and the
record is still emitted; only lines whose JSON parsing failed or that lack
a (truthy) `file_path` are skipped.  By contrast, an explicit `--files`
token with a status prefix outside `A`/`M`/`D` makes `parse_token` raise,
which aborts the whole `main_entry` run. -/
theorem claim_C10 :
    (∀ (obj : JRec) (fp s : List Char), obj.file_path = some fp → fp ≠ [] →
        obj.status = some s → s ≠ [] →
        ¬(s.map Char.toUpper = txt (r"A") ∨ s.map Char.toUpper = txt (r"M") ∨
          s.map Char.toUpper = txt (r"D")) →
        lineRec (some obj) = [(txt (r"M"), fp)]) ∧
      (∀ (obj : JRec) (fp : List Char), obj.file_path = some fp → fp ≠ [] →
        (obj.status = none ∨ obj.status = some []) →
        lineRec (some obj) = [(txt (r"M"), fp)]) ∧
      (lineRec none = []) ∧
      (∀ (obj : JRec), obj.file_path = none ∨ obj.file_path = some [] →
        lineRec (some obj) = []) ∧
      (∀ (toks : List (List Char)) (t : List Char), t ∈ toks → badFilesToken t →
        isErrorB (parseFiles toks) = true) ∧
      (∀ (a : Args) (env : Env) (toks : List (List Char)) (t : List Char),
        env.keysPresent = true → a.reindex_all = false → a.files = some toks →
        t ∈ toks → badFilesToken t →
        isErrorB (main_entry a env) = true) := by
  refine ⟨?_, ?_, rfl, ?_, parseFiles_error_of_mem, ?_⟩
  · intro obj fp s hfp hfpne hs hsne hbad
    simp only [lineRec]
    rw [hs, hfp]
    simp [hsne, hbad, hfpne]
  · intro obj fp hfp hfpne hs
    have hst1 : (txt (r"M")).map Char.toUpper = txt (r"M") := by decide
    rcases hs with hs | hs <;>
      (simp only [lineRec]; rw [hs, hfp]; simp [hst1, hfpne, ite_self])
  · intro obj hfp
    rcases hfp with hfp | hfp
    · simp only [lineRec]
      rw [hfp]
    · simp only [lineRec]
      rw [hfp]
      simp
  · intro a env toks t hk hr hf ht hbad
    unfold main_entry
    rw [if_neg (by simp [hk])]
    have htoks : ∃ t0 ts, toks = t0 :: ts := by
      cases toks with
      | nil => exact absurd ht (List.not_mem_nil t)
      | cons t0 ts => exact ⟨t0, ts, rfl⟩
    obtain ⟨t0, ts, rfl⟩ := htoks
    have hft : filesTruthy a = true := by
      unfold filesTruthy
      rw [hf]
    have hsel : selectFiles a env = (parseFiles (t0 :: ts)).map fun rs => (rs, false) := by
      unfold selectFiles
      rw [if_neg (by rw [hr]; simp)]
      rw [if_neg (by rw [hr]; simp)]
      rw [if_pos hft, hf]
    rw [hsel]
    have herr := parseFiles_error_of_mem (t0 :: ts) t ht hbad
    cases hpf : parseFiles (t0 :: ts) with
    | error e => rfl
    | ok rs =>
      rw [hpf] at herr
      exact absurd herr (by simp [isErrorB])

/-- Argument set: `--files Q:x.md` (invalid status prefix), no reindex. -/
def argsBadTok : Args := ⟨none, some [txt (r"Q:x.md")], none, none, false, false⟩

/-- A plain environment with keys present. -/
def envPlain : Env := ⟨true, [], [], [], none, [], none, demoCfg, DelOut.ok⟩

/-- C10, witness: a journal line with status `weird` and one with no
status are both coerced to `M` and emitted; a line without `file_path` is
skipped; the `--files` token `Q:x.md` raises and aborts the run. -/
theorem claim_C10_witness :
    lineRec (some ⟨some (txt (r"f.py")), some (txt (r"weird"))⟩) =
        [(txt (r"M"), txt (r"f.py"))] ∧
      lineRec (some ⟨some (txt (r"g.py")), none⟩) = [(txt (r"M"), txt (r"g.py"))] ∧
      lineRec (some ⟨none, some (txt (r"A"))⟩) = [] ∧
      isErrorB (parseFiles [txt (r"Q:x.md")]) = true ∧
      isErrorB (main_entry argsBadTok envPlain) = true :=
  ⟨claim_C10.1 _ _ _ rfl (by decide) rfl (by decide) (by decide),
   claim_C10.2.1 _ _ rfl (by decide) (Or.inl rfl),
   claim_C10.2.2.2.1 _ (Or.inl rfl),
   claim_C10.2.2.2.2.1 _ _ (List.mem_singleton.mpr rfl)
     ⟨txt (r"Q"), txt (r"x.md"), by decide, by decide⟩,
   claim_C10.2.2.2.2.2 argsBadTok envPlain _ _ rfl rfl rfl
     (List.mem_singleton.mpr rfl)
     ⟨txt (r"Q"), txt (r"x.md"), by decide, by decide⟩⟩

/-! ### Claim C2: rename expansion -/

lemma splitTab_append_tab {a : List Char} (hna : ¬ '\t' ∈ a) (r : List Char) :
    splitTab (a ++ '\t' :: r) = a :: splitTab r := by
  induction a with
  | nil => simp [splitTab]
  | cons c t ih =>
    have hc : ¬ c = '\t' := fun h => hna (h ▸ List.mem_cons_self _ _)
    have ht : ¬ '\t' ∈ t := fun h => hna (List.mem_cons_of_mem _ h)
    simp only [List.cons_append, splitTab, if_neg (by simpa using hc), List.append_eq]
    rw [ih ht]
    rfl

lemma splitTab_no_tab {a : List Char} (hna : ¬ '\t' ∈ a) : splitTab a = [a] := by
  induction a with
  | nil => rfl
  | cons c t ih =>
    have hc : ¬ c = '\t' := fun h => hna (h ▸ List.mem_cons_self _ _)
    have ht : ¬ '\t' ∈ t := fun h => hna (List.mem_cons_of_mem _ h)
    simp only [splitTab, if_neg (by simpa using hc)]
    rw [ih ht]
    rfl

lemma takeWhile_append_stop {p : Char → Bool} {a : List Char} {c : Char}
    (ha : ∀ x ∈ a, p x = true) (hc : p c = false) (r : List Char) :
    ((a ++ c :: r).takeWhile p) = a := by
  induction a with
  | nil => simp [List.takeWhile_cons, hc]
  | cons x t ih =>
    have hx : p x = true := ha x (List.mem_cons_self _ _)
    have ht : ∀ y ∈ t, p y = true := fun y hy => ha y (List.mem_cons_of_mem _ hy)
    simp only [List.cons_append, List.takeWhile_cons, hx, if_true]
    rw [ih ht]

lemma dropWhile_append_stop {p : Char → Bool} {a : List Char} {c : Char}
    (ha : ∀ x ∈ a, p x = true) (hc : p c = false) (r : List Char) :
    ((a ++ c :: r).dropWhile p) = c :: r := by
  induction a with
  | nil => simp [List.dropWhile_cons, hc]
  | cons x t ih =>
    have hx : p x = true := ha x (List.mem_cons_self _ _)
    have ht : ∀ y ∈ t, p y = true := fun y hy => ha y (List.mem_cons_of_mem _ hy)
    simp only [List.cons_append, List.dropWhile_cons, hx, if_true]
    exact ih ht

lemma head_any_ws_false {l : List Char} (h : ∀ c ∈ l, isSpace c = false) :
    l.head?.any isSpace = false := by
  cases l with
  | nil => rfl
  | cons c t => simp [h c (List.mem_cons_self _ _)]

lemma strip_eq_self {s : List Char} (hh : s.head?.any isSpace = false)
    (hl : s.reverse.head?.any isSpace = false) : strip s = s := by
  unfold strip
  have h1 : s.reverse.dropWhile isSpace = s.reverse := by
    cases hr : s.reverse with
    | nil => rfl
    | cons c t =>
      rw [hr] at hl
      simp only [List.head?_cons, Option.any_some] at hl
      simp [List.dropWhile_cons, hl]
  rw [h1, List.reverse_reverse]
  cases hs : s with
  | nil => rfl
  | cons c t =>
    rw [hs] at hh
    simp only [List.head?_cons, Option.any_some] at hh
    simp [List.dropWhile_cons, hh]

lemma pySplitWs_succ_cons {m : Nat} {s : List Char} {c : Char} {t : List Char}
    (h : s.dropWhile isSpace = c :: t) :
    pySplitWsMax (m + 1) s =
      ((c :: t).takeWhile fun d => !isSpace d) ::
        pySplitWsMax m ((c :: t).dropWhile fun d => !isSpace d) := by
  have hdef : pySplitWsMax (m + 1) s =
      (match s.dropWhile isSpace with
       | [] => []
       | c :: t =>
         ((c :: t).takeWhile fun d => !isSpace d) ::
           pySplitWsMax m ((c :: t).dropWhile fun d => !isSpace d)) := rfl
  rw [hdef, h]

lemma pySplitWs_zero_cons {s : List Char} {c : Char} {t : List Char}
    (h : s.dropWhile isSpace = c :: t) :
    pySplitWsMax 0 s = [c :: t] := by
  have hdef : pySplitWsMax 0 s =
      (match s.dropWhile isSpace with
       | [] => []
       | c :: t => [c :: t]) := rfl
  rw [hdef, h]

/-- C2, counterexample.  The diff line `R100\told.md\tnew.md` resolves to
`[Delete(old.md), Modify(new.md)]` — the new path is emitted with status
`M`, not `A` as the claim states (the module docstring itself says
"Rename: expanded to D old + M new"). -/
theorem claim_C2_counterexample :
    superLine (txt (r"R100") ++ '\t' :: txt (r"old.md") ++ '\t' :: txt (r"new.md")) =
        [(txt (r"D"), txt (r"old.md")), (txt (r"M"), txt (r"new.md"))] ∧
      superLine (txt (r"R100") ++ '\t' :: txt (r"old.md") ++ '\t' :: txt (r"new.md")) ≠
        [(txt (r"D"), txt (r"old.md")), (txt (r"A"), txt (r"new.md"))] := by
  constructor
  · decide
  · decide

/-- C2, amended.  Every rename entry of a name-status diff line (status
column starting with `R`, tab-separated old and new paths) is expanded to
exactly two records, `Delete(oldPath)` followed by `Modify(newPath)` — in
the superproject parser, in the submodule parser (paths prefixed with the
submodule path), and in the changed-files parser. -/
theorem claim_C2_amended (stTail old new subPath : List Char)
    (hT : ¬ '\t' ∈ stTail) (hTo : ¬ '\t' ∈ old) (hTn : ¬ '\t' ∈ new)
    (hWs : ∀ c ∈ stTail, isSpace c = false)
    (hWo : ∀ c ∈ old, isSpace c = false)
    (hWn : ∀ c ∈ new, isSpace c = false)
    (ho : old ≠ []) (hn : new ≠ []) :
    superLine ('R' :: stTail ++ '\t' :: old ++ '\t' :: new) =
        [(txt (r"D"), old), (txt (r"M"), new)] ∧
      subDiffLine subPath ('R' :: stTail ++ '\t' :: old ++ '\t' :: new) =
        [(txt (r"D"), subPath ++ '/' :: old), (txt (r"M"), subPath ++ '/' :: new)] ∧
      changedLineRecords ('R' :: stTail ++ '\t' :: old ++ '\t' :: new) =
        Except.ok [(txt (r"D"), old), (txt (r"M"), new)] := by
  set line : List Char := 'R' :: stTail ++ '\t' :: old ++ '\t' :: new with hline
  obtain ⟨nl, nt, hnew⟩ : ∃ c t, new = c :: t := by
    cases new with
    | nil => exact absurd rfl hn
    | cons c t => exact ⟨c, t, rfl⟩
  obtain ⟨ol, ot, hold⟩ : ∃ c t, old = c :: t := by
    cases old with
    | nil => exact absurd rfl ho
    | cons c t => exact ⟨c, t, rfl⟩
  have hstrip : strip line = line := by
    apply strip_eq_self
    · rfl
    · have hassoc : line = ('R' :: (stTail ++ '\t' :: old ++ ['\t'])) ++ new := by
        rw [hline]
        simp [List.append_assoc]
      rw [hassoc, List.reverse_append]
      cases hnr : new.reverse with
      | nil =>
        exact absurd (by simpa using congrArg List.reverse hnr) hn
      | cons c t =>
        have hc : isSpace c = false := by
          apply hWn
          rw [← List.mem_reverse, hnr]
          exact List.mem_cons_self _ _
        simp [hc]
  have hsplitTab : splitTab line = ('R' :: stTail) :: old :: [new] := by
    have h1 : line = ('R' :: stTail) ++ '\t' :: (old ++ '\t' :: new) := by
      rw [hline]; simp
    rw [h1, splitTab_append_tab (by
      intro hmem
      rcases List.mem_cons.mp hmem with h | h
      · exact absurd h.symm (by decide)
      · exact hT h)]
    rw [splitTab_append_tab hTo, splitTab_no_tab hTn]
  refine ⟨?_, ?_, ?_⟩
  · unfold superLine
    rw [hstrip, hsplitTab]
    show (if startsWithR ('R' :: stTail) = true
        then [(txt (r"D"), old), (txt (r"M"), new)] else [('R' :: stTail, old)]) = _
    rw [if_pos (by rfl)]
  · unfold subDiffLine
    rw [hstrip, hsplitTab]
    show (if startsWithR ('R' :: stTail) = true
        then [(txt (r"D"), subPath ++ '/' :: old), (txt (r"M"), subPath ++ '/' :: new)]
        else [('R' :: stTail, subPath ++ '/' :: old)]) = _
    rw [if_pos (by rfl)]
  · unfold changedLineRecords
    have hnw : ∀ x ∈ 'R' :: stTail, (!isSpace x) = true := by
      intro x hx
      rcases List.mem_cons.mp hx with rfl | hx2
      · rfl
      · simp [hWs x hx2]
    have hd1 : line.dropWhile isSpace = 'R' :: (stTail ++ '\t' :: old ++ '\t' :: new) := by
      rw [hline]
      simp [List.dropWhile_cons, isSpace]
    have hp1 := pySplitWs_succ_cons (m := 1) hd1
    have htk1 : (('R' :: (stTail ++ '\t' :: old ++ '\t' :: new)).takeWhile
        fun d => !isSpace d) = 'R' :: stTail := by
      have h1 : 'R' :: (stTail ++ '\t' :: old ++ '\t' :: new) =
          ('R' :: stTail) ++ '\t' :: (old ++ '\t' :: new) := by simp
      rw [h1]
      exact takeWhile_append_stop hnw (by decide) _
    have hdr1 : (('R' :: (stTail ++ '\t' :: old ++ '\t' :: new)).dropWhile
        fun d => !isSpace d) = '\t' :: (old ++ '\t' :: new) := by
      have h1 : 'R' :: (stTail ++ '\t' :: old ++ '\t' :: new) =
          ('R' :: stTail) ++ '\t' :: (old ++ '\t' :: new) := by simp
      rw [h1]
      exact dropWhile_append_stop hnw (by decide) _
    have hd2 : (('\t' :: (old ++ '\t' :: new)).dropWhile isSpace) =
        ol :: (ot ++ '\t' :: new) := by
      rw [List.dropWhile_cons]
      rw [if_pos (by decide)]
      rw [hold]
      simp [List.dropWhile_cons, hWo ol (by rw [hold]; exact List.mem_cons_self _ _)]
    have hp2 := pySplitWs_succ_cons (m := 0) hd2
    have hoa : ol :: (ot ++ '\t' :: new) = old ++ '\t' :: new := by rw [hold]; rfl
    have htk2 : ((ol :: (ot ++ '\t' :: new)).takeWhile fun d => !isSpace d) = old := by
      rw [hoa]
      exact takeWhile_append_stop (fun x hx => by simp [hWo x hx]) (by decide) _
    have hdr2 : ((ol :: (ot ++ '\t' :: new)).dropWhile fun d => !isSpace d) =
        '\t' :: new := by
      rw [hoa]
      exact dropWhile_append_stop (fun x hx => by simp [hWo x hx]) (by decide) _
    have hd3 : (('\t' :: new).dropWhile isSpace) = nl :: nt := by
      rw [List.dropWhile_cons]
      rw [if_pos (by decide)]
      rw [hnew]
      simp [List.dropWhile_cons, hWn nl (by rw [hnew]; exact List.mem_cons_self _ _)]
    have hp3 := pySplitWs_zero_cons hd3
    have hparts : pySplitWsMax 2 line = ('R' :: stTail) :: old :: [new] := by
      rw [hp1, htk1, hdr1, hp2, htk2, hdr2, hp3, hnew]
    rw [hparts]
    show (if startsWithR ('R' :: stTail) = true
        then Except.ok [(txt (r"D"), old), (txt (r"M"), new)]
        else Except.ok (if old ≠ [] then [('R' :: stTail, old)] else [])) =
      Except.ok [(txt (r"D"), old), (txt (r"M"), new)]
    rw [if_pos (by rfl)]

/-- C2, witness for the amended theorem at the line
`R100  old.md  new.md` (tab-separated) and submodule path `team`. -/
theorem claim_C2_witness :
    superLine ('R' :: txt (r"100") ++ '\t' :: txt (r"old.md") ++ '\t' :: txt (r"new.md")) =
        [(txt (r"D"), txt (r"old.md")), (txt (r"M"), txt (r"new.md"))] ∧
      subDiffLine (txt (r"team"))
          ('R' :: txt (r"100") ++ '\t' :: txt (r"old.md") ++ '\t' :: txt (r"new.md")) =
        [(txt (r"D"), txt (r"team") ++ '/' :: txt (r"old.md")),
         (txt (r"M"), txt (r"team") ++ '/' :: txt (r"new.md"))] ∧
      changedLineRecords ('R' :: txt (r"100") ++ '\t' :: txt (r"old.md") ++ '\t' :: txt (r"new.md")) =
        Except.ok [(txt (r"D"), txt (r"old.md")), (txt (r"M"), txt (r"new.md"))] :=
  claim_C2_amended (txt (r"100")) (txt (r"old.md")) (txt (r"new.md")) (txt (r"team"))
    (by decide) (by decide) (by decide) (by decide) (by decide) (by decide)
    (by decide) (by decide)
